import Mathlib

/-!
Verification of the tokenizer pipeline engine (`src/tokenizer.cpp`).

Strings are modelled as lists of byte values (`ByteStr := List Nat`, each
element < 256 where relevant).  All definitions are shallow embeddings of the
corresponding C++ functions; doubles are modelled as rationals, the regex
engine and the Unicode property database are treated as black boxes
(abstract functions with the contract the spec gives them).
-/

set_option linter.unusedVariables false

namespace TokenizerCpp

/-- Byte strings: the contents of a `std::string`, one `Nat` per byte. -/
abbrev ByteStr := List Nat

/-- UTF-8 encoding of a code point, mirror of the lambda `u2u` inside
`create_bytes_char_map` (handles code points up to 0xFFFF; the bitwise
or/shift combinations of the source are written as arithmetic, which agrees
with them because the or-ed operands have disjoint bits). -/
def u2u (cp : Nat) : ByteStr :=
  if cp ≤ 0x7F then [cp]
  else if cp ≤ 0x7FF then [0xC0 + cp / 64, 0x80 + cp % 64]
  else if cp ≤ 0xFFFF then [0xE0 + cp / 4096, 0x80 + cp / 64 % 64, 0x80 + cp % 64]
  else []

/-- Bytes that `create_bytes_char_map` maps to their own code point:
33..126, 161..172, 174..255. -/
def isDirectByte (b : Nat) : Bool :=
  (33 ≤ b && b ≤ 126) || (161 ≤ b && b ≤ 172) || (174 ≤ b && b ≤ 255)

/-- Number of non-direct bytes strictly below `b`: the value of the counter
`n` in the second loop of `create_bytes_char_map` when byte `b` is reached. -/
def nonDirectCountBelow (b : Nat) : Nat :=
  ((List.range b).filter (fun x => !isDirectByte x)).length

/-- Code point assigned to byte `b` by `create_bytes_char_map`: direct bytes
keep their own value, the remaining bytes get `256 + n` in ascending order. -/
def bytesCharCp (b : Nat) : Nat :=
  if isDirectByte b then b else 256 + nonDirectCountBelow b

/-- The byte-alphabet table of `create_bytes_char_map`: byte → UTF-8 string
of its assigned code point. -/
def bytesCharMap (b : Nat) : ByteStr := u2u (bytesCharCp b)

/-- The inverse table built by `ByteLevelDecoder::decode` (`bm`): find the
byte whose alphabet string is `s`. -/
def byteOfChar (s : ByteStr) : Option Nat :=
  (List.range 256).find? (fun b => bytesCharMap b == s)

/-- Model of `utf8proc_iterate` on a byte string: decode one UTF-8 code
point, returning the code point and the number of bytes consumed, or `none`
on invalid input (invalid lead byte, missing/invalid continuation bytes,
overlong forms, surrogates, out-of-range). -/
def utf8Iterate : ByteStr → Option (Nat × Nat)
  | [] => none
  | b :: rest =>
    if b < 0x80 then some (b, 1)
    else if b < 0xC2 then none
    else if b < 0xE0 then
      match rest with
      | c1 :: _ =>
        if 0x80 ≤ c1 ∧ c1 < 0xC0 then some ((b - 0xC0) * 64 + (c1 - 0x80), 2) else none
      | [] => none
    else if b < 0xF0 then
      match rest with
      | c1 :: c2 :: _ =>
        if (0x80 ≤ c1 ∧ c1 < 0xC0) ∧ (0x80 ≤ c2 ∧ c2 < 0xC0) ∧
           (b ≠ 0xE0 ∨ 0xA0 ≤ c1) ∧ (b ≠ 0xED ∨ c1 < 0xA0) then
          some ((b - 0xE0) * 4096 + (c1 - 0x80) * 64 + (c2 - 0x80), 3)
        else none
      | _ => none
    else if b < 0xF5 then
      match rest with
      | c1 :: c2 :: c3 :: _ =>
        if (0x80 ≤ c1 ∧ c1 < 0xC0) ∧ (0x80 ≤ c2 ∧ c2 < 0xC0) ∧ (0x80 ≤ c3 ∧ c3 < 0xC0) ∧
           (b ≠ 0xF0 ∨ 0x90 ≤ c1) ∧ (b ≠ 0xF4 ∨ c1 < 0x90) then
          some ((b - 0xF0) * 262144 + (c1 - 0x80) * 4096 + (c2 - 0x80) * 64 + (c3 - 0x80), 4)
        else none
      | _ => none
    else none

theorem utf8Iterate_bounds {l : ByteStr} {cp r : Nat}
    (h : utf8Iterate l = some (cp, r)) : 1 ≤ r ∧ r ≤ l.length := by
  rcases l with _ | ⟨b, _ | ⟨c1, _ | ⟨c2, _ | ⟨c3, t⟩⟩⟩⟩ <;>
    simp only [utf8Iterate] at h <;>
    repeat' split at h
  all_goals first
    | (simp only [Option.some.injEq, Prod.mk.injEq] at h
       obtain ⟨h1, h2⟩ := h
       subst h2
       simp only [List.length_cons, List.length_nil]
       omega)
    | simp at h

theorem utf8Iterate_u2u {cp : Nat} (h : cp ≤ 0x7FF) (rest : ByteStr) :
    utf8Iterate (u2u cp ++ rest) = some (cp, (u2u cp).length) := by
  by_cases h1 : cp ≤ 0x7F
  · have hlt : cp < 0x80 := by omega
    simp [u2u, h1, utf8Iterate, hlt]
  · simp only [u2u, h1, if_false, if_pos h, List.cons_append, List.length_cons,
      List.length_nil, utf8Iterate]
    rw [if_neg (by omega), if_neg (by omega), if_pos (by omega),
      if_pos (by constructor <;> omega)]
    simp only [Option.some.injEq, Prod.mk.injEq]
    exact ⟨by omega, by trivial⟩

theorem u2u_inj {cp1 cp2 : Nat} (h1 : cp1 ≤ 0x7FF) (h2 : cp2 ≤ 0x7FF)
    (h : u2u cp1 = u2u cp2) : cp1 = cp2 := by
  have e1 := utf8Iterate_u2u h1 []
  have e2 := utf8Iterate_u2u h2 []
  rw [h] at e1
  rw [e2] at e1
  simp only [Option.some.injEq, Prod.mk.injEq] at e1
  exact e1.1.symm

theorem nonDirectCountBelow_succ (b : Nat) :
    nonDirectCountBelow (b + 1) =
      nonDirectCountBelow b + (if isDirectByte b then 0 else 1) := by
  simp only [nonDirectCountBelow, List.range_succ, List.filter_append]
  by_cases h : isDirectByte b <;> simp [h]

theorem nonDirectCountBelow_mono {b1 b2 : Nat} (h : b1 ≤ b2) :
    nonDirectCountBelow b1 ≤ nonDirectCountBelow b2 := by
  induction b2 with
  | zero =>
    have hb : b1 = 0 := by omega
    simp [hb]
  | succ n ih =>
    by_cases hb : b1 ≤ n
    · have := ih hb
      rw [nonDirectCountBelow_succ]
      split <;> omega
    · have hb2 : b1 = n + 1 := by omega
      subst hb2
      exact Nat.le_refl _

theorem nonDirectCountBelow_strict {b1 b2 : Nat} (h : b1 < b2)
    (hnd : isDirectByte b1 = false) :
    nonDirectCountBelow b1 < nonDirectCountBelow b2 := by
  have h1 : nonDirectCountBelow (b1 + 1) = nonDirectCountBelow b1 + 1 := by
    rw [nonDirectCountBelow_succ, hnd]; rfl
  have h2 := @nonDirectCountBelow_mono (b1 + 1) b2 h
  omega

theorem nonDirectCountBelow_le (b : Nat) : nonDirectCountBelow b ≤ b := by
  calc nonDirectCountBelow b ≤ (List.range b).length := List.length_filter_le _ _
  _ = b := List.length_range b

theorem bytesCharCp_le {b : Nat} (h : b < 256) : bytesCharCp b ≤ 511 := by
  unfold bytesCharCp
  split
  · omega
  · have := nonDirectCountBelow_le b
    omega

theorem bytesCharCp_inj {b1 b2 : Nat} (h1 : b1 < 256) (h2 : b2 < 256)
    (h : bytesCharCp b1 = bytesCharCp b2) : b1 = b2 := by
  unfold bytesCharCp at h
  by_cases d1 : isDirectByte b1 <;> by_cases d2 : isDirectByte b2 <;> simp [d1, d2] at h
  · exact h
  · exfalso; unfold isDirectByte at d1; simp at d1; omega
  · exfalso; unfold isDirectByte at d2; simp at d2; omega
  · rcases Nat.lt_trichotomy b1 b2 with hlt | heq | hgt
    · have := nonDirectCountBelow_strict hlt (by simpa using d1); omega
    · exact heq
    · have := nonDirectCountBelow_strict hgt (by simpa using d2); omega

theorem bytesCharMap_inj {b1 b2 : Nat} (h1 : b1 < 256) (h2 : b2 < 256)
    (h : bytesCharMap b1 = bytesCharMap b2) : b1 = b2 :=
  bytesCharCp_inj h1 h2
    (u2u_inj (by have := bytesCharCp_le h1; omega) (by have := bytesCharCp_le h2; omega) h)

theorem find?_unique {α : Type} {p : α → Bool} {l : List α} {a : α}
    (ha : a ∈ l) (hp : p a = true) (huniq : ∀ x ∈ l, p x = true → x = a) :
    l.find? p = some a := by
  induction l with
  | nil => cases ha
  | cons x t ih =>
    by_cases hx : p x = true
    · have hxa : x = a := huniq x (by simp) hx
      rw [List.find?_cons_of_pos _ hx, hxa]
    · rw [Bool.not_eq_true] at hx
      rw [List.find?_cons_of_neg _ (by simp [hx])]
      have hat : a ∈ t := by
        cases ha with
        | head => exact absurd hp (by simp [hx])
        | tail _ h => exact h
      exact ih hat (fun x hx hp => huniq x (List.mem_cons_of_mem _ hx) hp)

theorem byteOfChar_bytesCharMap {b : Nat} (h : b < 256) :
    byteOfChar (bytesCharMap b) = some b := by
  apply find?_unique (List.mem_range.mpr h)
  · simp
  · intro x hx hp
    exact bytesCharMap_inj (List.mem_range.mp hx) h (by simpa using hp)

/-- C8: the byte-alphabet table maps bytes 33..126, 161..172, 174..255 to
their own code points, and the remaining 68 bytes to code points 256..323 in
ascending byte order; the table is a bijection, and composing it with the
inverse table used by the ByteLevel decoder is the identity on all 256
bytes. -/
theorem byte_alphabet_bijection :
    (∀ b : Nat, ((33 ≤ b ∧ b ≤ 126) ∨ (161 ≤ b ∧ b ≤ 172) ∨ (174 ≤ b ∧ b ≤ 255)) →
      bytesCharCp b = b) ∧
    (∀ b : Nat, b < 256 → isDirectByte b = false →
      bytesCharCp b = 256 + nonDirectCountBelow b ∧
      256 ≤ bytesCharCp b ∧ bytesCharCp b ≤ 323) ∧
    (∀ b1 b2 : Nat, b1 < 256 → b2 < 256 → isDirectByte b1 = false →
      isDirectByte b2 = false → b1 < b2 → bytesCharCp b1 < bytesCharCp b2) ∧
    nonDirectCountBelow 256 = 68 ∧
    (∀ b1 b2 : Nat, b1 < 256 → b2 < 256 → bytesCharMap b1 = bytesCharMap b2 → b1 = b2) ∧
    (∀ b : Nat, b < 256 → byteOfChar (bytesCharMap b) = some b) := by
  have hcount : nonDirectCountBelow 256 = 68 := by decide
  refine ⟨?_, ?_, ?_, hcount, ?_, ?_⟩
  · intro b hb
    have : isDirectByte b = true := by unfold isDirectByte; simp; omega
    simp [bytesCharCp, this]
  · intro b hb hnd
    have he : bytesCharCp b = 256 + nonDirectCountBelow b := by simp [bytesCharCp, hnd]
    refine ⟨he, by omega, ?_⟩
    have h1 : nonDirectCountBelow (b + 1) = nonDirectCountBelow b + 1 := by
      rw [nonDirectCountBelow_succ, hnd]; rfl
    have h2 := @nonDirectCountBelow_mono (b + 1) 256 (by omega)
    omega
  · intro b1 b2 h1 h2 nd1 nd2 hlt
    simp only [bytesCharCp, nd1, nd2, Bool.false_eq_true, if_false]
    have := nonDirectCountBelow_strict hlt nd1
    omega
  · exact fun b1 b2 h1 h2 => bytesCharMap_inj h1 h2
  · exact fun b h => byteOfChar_bytesCharMap h

theorem byte_alphabet_bijection_witness :
    ((33 ≤ 65 ∧ 65 ≤ 126) ∨ (161 ≤ 65 ∧ 65 ≤ 172) ∨ (174 ≤ 65 ∧ 65 ≤ 255)) ∧
    bytesCharCp 65 = 65 ∧
    bytesCharCp 0 = 256 + nonDirectCountBelow 0 ∧
    byteOfChar (bytesCharMap 200) = some 200 := by
  refine ⟨by omega, byte_alphabet_bijection.1 65 (by omega), ?_, ?_⟩
  · exact (byte_alphabet_bijection.2.1 0 (by omega) (by decide)).1
  · exact byte_alphabet_bijection.2.2.2.2.2 200 (by omega)

/-! ## Vocabulary maps

A `vocab` is the association list of a `std::map`/`std::unordered_map`
token → id (`std::map` keys are unique; for `unordered_map` built by
overwriting inserts, the last entry with a given key wins, which the
reverse lookup below mirrors). -/

/-- Lookup in the token → id map. -/
def lookupTok (vocab : List (ByteStr × Int)) (t : ByteStr) : Option Int :=
  (vocab.find? (fun p => p.1 == t)).map (fun p => p.2)

/-- Model of `BPEModel::token_to_id`: the id, or −1 when absent. -/
def BPE_token_to_id (vocab : List (ByteStr × Int)) (t : ByteStr) : Int :=
  (lookupTok vocab t).getD (-1)

/-- Model of `BPEModel::id_to_token` (the inverse map `id_to_token_` is
built by inserting every vocab entry in order, so the last entry with a
given id wins), returning "" (i.e. `[]`) when absent. -/
def BPE_id_to_token (vocab : List (ByteStr × Int)) (i : Int) : ByteStr :=
  ((vocab.reverse.find? (fun p => p.2 == i)).map (fun p => p.1)).getD []

/-- Model of the cached `unk_token_id_` computed by `WordPieceModel::load`:
the id of the unk token, or −1 when the unk token is not in the vocab. -/
def wordPieceUnkId (vocab : List (ByteStr × Int)) (unk : ByteStr) : Int :=
  (lookupTok vocab unk).getD (-1)

/-- Model of `WordPieceModel::token_to_id`: the id when present, otherwise
the cached `unk_token_id_` (NOT −1). -/
def WordPiece_token_to_id (vocab : List (ByteStr × Int)) (unk t : ByteStr) : Int :=
  (lookupTok vocab t).getD (wordPieceUnkId vocab unk)

/-- Unigram entries: the dense array built by `UnigramModel::load`, the id
of an entry is its index; scores (C++ `double`) are modelled as rationals. -/
abbrev UgEntries := List (ByteStr × ℚ)

/-- Model of the Unigram `vocab_` map token → index (later duplicate tokens
overwrite earlier ones, so the greatest index with that token wins). -/
def ugLookup (entries : UgEntries) (t : ByteStr) : Option Nat :=
  ((entries.enum.filter (fun p => p.2.1 == t)).getLast?).map (fun p => p.1)

/-- Model of `UnigramModel::token_to_id`: the index when present, otherwise
`unk_token_id_` (NOT −1). -/
def Unigram_token_to_id (entries : UgEntries) (unkId : Int) (t : ByteStr) : Int :=
  match ugLookup entries t with
  | some i => (i : Int)
  | none => unkId

theorem lookupTok_mem {vocab : List (ByteStr × Int)} {t : ByteStr} {i : Int}
    (hnd : (vocab.map (fun p => p.1)).Nodup) (hm : (t, i) ∈ vocab) :
    lookupTok vocab t = some i := by
  induction vocab with
  | nil => cases hm
  | cons hd tl ih =>
    simp only [List.map_cons, List.nodup_cons] at hnd
    rcases List.mem_cons.mp hm with heq | hm
    · rw [← heq]
      simp [lookupTok]
    · have hneb : (hd.1 == t) = false := by
        simp only [beq_eq_false_iff_ne, ne_eq]
        intro he
        exact hnd.1 (he ▸ List.mem_map_of_mem (fun p => p.1) hm)
      have hstep : lookupTok (hd :: tl) t = lookupTok tl t := by
        unfold lookupTok
        simp only [List.find?_cons, hneb]
      rw [hstep]
      exact ih hnd.2 hm

theorem lookupTok_mem_of_ne {vocab : List (ByteStr × Int)} {t : ByteStr} {i : Int}
    (h : lookupTok vocab t = some i) : (t, i) ∈ vocab := by
  unfold lookupTok at h
  rcases hf : vocab.find? (fun p => p.1 == t) with _ | p
  · rw [hf] at h; cases h
  · rw [hf] at h
    have h : p.2 = i := by
      simpa using h
    have hmem := List.mem_of_find?_eq_some hf
    have hp := List.find?_some hf
    simp only [beq_iff_eq] at hp
    have hpe : p = (t, i) := Prod.ext hp h
    exact hpe ▸ hmem

/-- C2 (amended): `token_to_id` returns the mapped id when the token is
present; when absent, BPE returns −1 but WordPiece returns its cached unk
id and Unigram returns `unk_token_id_`. -/
theorem token_to_id_models (vocab : List (ByteStr × Int)) (unk t : ByteStr)
    (entries : UgEntries) (unkId : Int) :
    (∀ i : Int, (vocab.map (fun p => p.1)).Nodup → (t, i) ∈ vocab →
      BPE_token_to_id vocab t = i ∧ WordPiece_token_to_id vocab unk t = i) ∧
    (lookupTok vocab t = none →
      BPE_token_to_id vocab t = -1 ∧
      WordPiece_token_to_id vocab unk t = wordPieceUnkId vocab unk) ∧
    (ugLookup entries t = none → Unigram_token_to_id entries unkId t = unkId) ∧
    (∀ i : Nat, ugLookup entries t = some i →
      Unigram_token_to_id entries unkId t = (i : Int)) := by
  refine ⟨?_, ?_, ?_, ?_⟩
  · intro i hnd hm
    have := lookupTok_mem hnd hm
    simp [BPE_token_to_id, WordPiece_token_to_id, this]
  · intro h
    simp [BPE_token_to_id, WordPiece_token_to_id, h]
  · intro h
    simp [Unigram_token_to_id, h]
  · intro i h
    simp [Unigram_token_to_id, h]

theorem token_to_id_models_witness :
    (([97], (5 : Int)) ∈ [(([97] : ByteStr), (5 : Int))] ∧
      BPE_token_to_id [([97], 5)] [97] = 5 ∧
      WordPiece_token_to_id [([97], 5)] [117] [97] = 5) ∧
    (lookupTok [([97], (5 : Int))] [98] = none ∧
      BPE_token_to_id [([97], 5)] [98] = -1) := by
  refine ⟨⟨by decide, ?_⟩, by decide, ?_⟩
  · exact (token_to_id_models [([97], 5)] [117] [97] [] 0).1 5 (by decide) (by decide)
  · exact ((token_to_id_models [([97], 5)] [117] [98] [] 0).2.1 (by decide)).1

/-- C2 counterexample: `"b"` is absent from the WordPiece vocab whose unk
token `"u"` has id 7, yet `token_to_id` returns 7, not −1. -/
theorem token_to_id_counterexample :
    lookupTok [(([97] : ByteStr), (5 : Int)), ([117], 7)] [98] = none ∧
    WordPiece_token_to_id [([97], 5), ([117], 7)] [117] [98] ≠ -1 := by
  decide

/-! ## WordPiece model -/

/-- The candidate substring of `WordPieceModel::tokenize`:
`text.substr(start, e - start)`, with `continuing_subword_prefix_`
prepended when `start > 0`. -/
def wpSubword (cont text : ByteStr) (start e : Nat) : ByteStr :=
  let sub := (text.drop start).take (e - start)
  if start > 0 then cont ++ sub else sub

/-- The inner greedy loop of `WordPieceModel::tokenize`: try ever shorter
substrings `text[start..e]` until one is in the vocab. -/
def wpFindGo (vocab : List (ByteStr × Int)) (cont text : ByteStr) (start : Nat) :
    Nat → Option (Int × Nat)
  | e =>
    if e ≤ start then none
    else
      match lookupTok vocab (wpSubword cont text start e) with
      | some id => some (id, e)
      | none => wpFindGo vocab cont text start (e - 1)
  termination_by e => e

/-- The outer loop of `WordPieceModel::tokenize` (fuel-indexed: every
iteration strictly advances `start`, so `text.length + 1` steps always
suffice). When no prefix matches, the whole word is unk:
`return { unk_token_id_ };` — note that this pushes `unk_token_id_` even
when it is −1. -/
def wpGo (vocab : List (ByteStr × Int)) (cont : ByteStr) (unkId : Int)
    (text : ByteStr) : Nat → Nat → List Int → List Int
  | 0, _, acc => acc
  | fuel + 1, start, acc =>
    if start < text.length then
      match wpFindGo vocab cont text start text.length with
      | none => [unkId]
      | some (id, e) => wpGo vocab cont unkId text fuel e (acc ++ [id])
    else acc

/-- Model of `WordPieceModel::tokenize`. -/
def WordPiece_tokenize (vocab : List (ByteStr × Int)) (unk cont : ByteStr)
    (maxChars : Int) (text : ByteStr) : List Int :=
  if text = [] then []
  else if (text.length : Int) > maxChars then
    if wordPieceUnkId vocab unk ≠ -1 then [wordPieceUnkId vocab unk] else []
  else wpGo vocab cont (wordPieceUnkId vocab unk) text (text.length + 1) 0 []

/-- C7 (amended): a fragment longer (in bytes) than
`max_input_chars_per_word` tokenizes to `[unk_id]` when the unk token is in
the vocab, and to the empty sequence when it is not (`unk_token_id_ = −1`). -/
theorem wordpiece_long_word (vocab : List (ByteStr × Int)) (unk cont : ByteStr)
    (maxChars : Int) (text : ByteStr) (hne : text ≠ [])
    (hlong : (text.length : Int) > maxChars) :
    WordPiece_tokenize vocab unk cont maxChars text =
      if wordPieceUnkId vocab unk ≠ -1 then [wordPieceUnkId vocab unk] else [] := by
  simp [WordPiece_tokenize, hne, hlong]

theorem wordpiece_long_word_witness :
    (([97, 98] : ByteStr) ≠ [] ∧ (([97, 98] : ByteStr).length : Int) > 1) ∧
    WordPiece_tokenize [([85], 3)] [85] [35, 35] 1 [97, 98] =
      (if wordPieceUnkId [([85], 3)] [85] ≠ -1 then [wordPieceUnkId [([85], 3)] [85]] else []) :=
  ⟨⟨by decide, by decide⟩,
    wordpiece_long_word [([85], 3)] [85] [35, 35] 1 [97, 98] (by decide) (by decide)⟩

/-- C7 counterexample: with an empty vocab the unk token is absent
(`unk_token_id_ = −1`), and a 1-byte fragment with
`max_input_chars_per_word = 0` tokenizes to `[]`, not to the one-element
sequence `[unk_id]`. -/
theorem wordpiece_long_word_counterexample :
    WordPiece_tokenize [] [85] [35, 35] 0 [97] = [] ∧
    WordPiece_tokenize [] [85] [35, 35] 0 [97] ≠ [wordPieceUnkId [] [85]] := by
  decide


/-! ## Replace normalizer (C4) -/

/-- First index at which `pat` occurs in `s` (`std::string::find`). -/
def findSub (pat : ByteStr) : ByteStr → Option Nat
  | [] => if pat.isPrefixOf [] then some 0 else none
  | b :: tl =>
    if pat.isPrefixOf (b :: tl) then some 0
    else (findSub pat tl).map (fun n => n + 1)

theorem findSub_bound {pat : ByteStr} (hp : pat ≠ []) :
    ∀ {s : ByteStr} {i : Nat}, findSub pat s = some i → i + pat.length ≤ s.length := by
  intro s
  induction s with
  | nil =>
    intro i h
    rcases pat with _ | ⟨p, pt⟩
    · exact absurd rfl hp
    · simp [findSub, List.isPrefixOf] at h
  | cons b tl ih =>
    intro i h
    by_cases hpre : pat.isPrefixOf (b :: tl)
    · simp only [findSub, hpre, if_true] at h
      cases h
      have := (List.isPrefixOf_iff_prefix.mp hpre).length_le
      simpa using this
    · simp only [findSub, hpre, if_false] at h
      rcases ho : findSub pat tl with _ | n
      · rw [ho] at h; cases h
      · rw [ho] at h
        simp at h
        have := ih ho
        simp only [List.length_cons]
        omega

theorem findSub_nil {pat : ByteStr} (hp : pat ≠ []) : findSub pat [] = none := by
  rcases pat with _ | ⟨p, pt⟩
  · exact absurd rfl hp
  · simp [findSub, List.isPrefixOf]

/-- The replacement loop of `ReplaceNormalizer::normalize` for a non-empty
pattern: find the next occurrence, splice in `content`, continue after the
replacement (the C++ loop mutates `out` in place and resumes the search at
`pos + content.length()`, which is the same as recursing on the suffix
after the removed occurrence). -/
def replaceAllGo (pat content : ByteStr) (hp : pat ≠ []) (s : ByteStr) : ByteStr :=
  match h : findSub pat s with
  | none => s
  | some i => s.take i ++ content ++ replaceAllGo pat content hp (s.drop (i + pat.length))
  termination_by s.length
  decreasing_by
    have hb := findSub_bound hp h
    have hl : 1 ≤ pat.length := List.length_pos.mpr hp
    have hkey : s.length - (i + pat.length) < s.length := by omega
    simpa only [List.length_drop] using hkey

/-- Model of `ReplaceNormalizer::normalize`: empty patterns leave the text
unchanged, otherwise all occurrences are replaced left to right. -/
def ReplaceNormalizer_normalize (pat content s : ByteStr) : ByteStr :=
  if hp : pat = [] then s else replaceAllGo pat content hp s

theorem replaceAllGo_ne_nil {pat content : ByteStr} (hp : pat ≠ [])
    (hc : content ≠ []) (s : ByteStr) (hs : s ≠ []) :
    replaceAllGo pat content hp s ≠ [] := by
  rw [replaceAllGo.eq_def]
  split
  · exact hs
  · simp [hc]

/-- C4 (amended): a `ReplaceNormalizer` whose replacement content is
non-empty (or whose pattern is empty, making it the identity) returns the
empty string iff its input is the empty string.  The unrestricted claim is
false: the loader accepts `Replace` with empty `content`, which deletes
matches (see the counterexample). -/
theorem replace_normalize_empty_iff (pat content s : ByteStr)
    (h : content ≠ [] ∨ pat = []) :
    (ReplaceNormalizer_normalize pat content s = [] ↔ s = []) := by
  unfold ReplaceNormalizer_normalize
  split
  · exact Iff.rfl
  · rename_i hp
    have hc : content ≠ [] := by
      rcases h with hc | he
      · exact hc
      · exact absurd he hp
    constructor
    · intro he
      by_contra hs
      exact replaceAllGo_ne_nil hp hc s hs he
    · intro he
      subst he
      rw [replaceAllGo.eq_def]
      split
      · rfl
      · rename_i i heq
        rw [findSub_nil hp] at heq
        cases heq

theorem replace_normalize_empty_iff_witness :
    (([98] : ByteStr) ≠ [] ∨ ([97] : ByteStr) = []) ∧
    (ReplaceNormalizer_normalize [97] [98] [97] = [] ↔ ([97] : ByteStr) = []) :=
  ⟨Or.inl (by decide), replace_normalize_empty_iff [97] [98] [97] (Or.inl (by decide))⟩

/-- C4 counterexample: the loader-constructible `Replace` normalizer with
pattern `"a"` and content `""` maps the non-empty string `"a"` to `""`,
so a normalizer constructed by the loader can empty a non-empty string. -/
theorem replace_normalize_counterexample :
    ReplaceNormalizer_normalize [97] [] [97] = [] ∧ ([97] : ByteStr) ≠ [] := by
  constructor
  · rw [ReplaceNormalizer_normalize]
    split
    · simp_all
    · rw [replaceAllGo.eq_def]
      split
      · rename_i heq
        simp [findSub, List.isPrefixOf] at heq
      · rename_i i heq
        simp [findSub, List.isPrefixOf] at heq
        subst heq
        rw [replaceAllGo.eq_def]
        simp [findSub]
  · decide

/-! ## Metaspace pre-tokenizer (C3) -/

/-- The per-fragment character walk of `MetaspacePreTokenizer::pre_tokenize`:
decode one code point at a time, emit the replacement for a single space
character, pass everything else through; an invalid byte stops the walk
(the C++ loop breaks, dropping the rest of the fragment). -/
def msReplaceGo (rep : ByteStr) (s : ByteStr) : ByteStr :=
  match h : utf8Iterate s with
  | none => []
  | some (cp, r) =>
    (if s.take r = [32] then rep else s.take r) ++ msReplaceGo rep (s.drop r)
  termination_by s.length
  decreasing_by
    have hb := utf8Iterate_bounds h
    have hkey : s.length - r < s.length := by omega
    simpa only [List.length_drop] using hkey

/-- Model of one fragment of `MetaspacePreTokenizer::pre_tokenize`: note
that the prefix-space test is applied to EVERY fragment in the loop, not
only the first one. -/
def metaspaceFrag (rep : ByteStr) (aps : Bool) (s : ByteStr) : ByteStr :=
  msReplaceGo rep (if aps ∧ s ≠ [] ∧ s.head? ≠ some 32 then 32 :: s else s)

/-- Model of `MetaspacePreTokenizer::pre_tokenize` on a `PreTokenizedString`. -/
def Metaspace_pre_tokenize (rep : ByteStr) (aps : Bool) (splits : List ByteStr) :
    List ByteStr :=
  splits.map (metaspaceFrag rep aps)

/-- Byte-level space replacement, the spec's description of the second
phase ("replace every space character in every fragment"). -/
def specReplaceSpaces (rep : ByteStr) (s : ByteStr) : ByteStr :=
  (s.map (fun b => if b = 32 then rep else [b])).flatten

/-- The claim's reading of the spec sentence (prefix space only on the very
first fragment), used to state the counterexample. -/
def specMetaspaceClaim (rep : ByteStr) (aps : Bool) (splits : List ByteStr) :
    List ByteStr :=
  let withPre :=
    match splits with
    | [] => []
    | s :: tl => (if aps ∧ s ≠ [] ∧ s.head? ≠ some 32 then 32 :: s else s) :: tl
  withPre.map (specReplaceSpaces rep)

/-- Well-formedness of a byte string as UTF-8 (full decode succeeds). -/
def validUtf8 (s : ByteStr) : Bool :=
  match h : utf8Iterate s with
  | none => s.isEmpty
  | some (cp, r) => validUtf8 (s.drop r)
  termination_by s.length
  decreasing_by
    have hb := utf8Iterate_bounds h
    have hkey : s.length - r < s.length := by omega
    simpa only [List.length_drop] using hkey

theorem specReplaceSpaces_append (rep a b : ByteStr) :
    specReplaceSpaces rep (a ++ b) = specReplaceSpaces rep a ++ specReplaceSpaces rep b := by
  simp [specReplaceSpaces]

theorem specReplaceSpaces_no32 (rep : ByteStr) :
    ∀ l : ByteStr, (∀ b ∈ l, b ≠ 32) → specReplaceSpaces rep l = l := by
  intro l
  induction l with
  | nil => intro _; simp [specReplaceSpaces]
  | cons y ys ih =>
    intro h
    have hy : y ≠ 32 := h y (by simp)
    have hys := ih (fun b hb => h b (List.mem_cons_of_mem _ hb))
    simp only [specReplaceSpaces, List.map_cons, List.flatten_cons, if_neg hy] at hys ⊢
    rw [hys]
    rfl

theorem utf8Iterate_multibyte_no32 {l : ByteStr} {cp r : Nat}
    (h : utf8Iterate l = some (cp, r)) (hr : 2 ≤ r) :
    ∀ b ∈ l.take r, b ≠ 32 := by
  rcases l with _ | ⟨b, _ | ⟨c1, _ | ⟨c2, _ | ⟨c3, t⟩⟩⟩⟩ <;>
    simp only [utf8Iterate] at h <;>
    repeat' split at h
  all_goals first
    | (simp only [Option.some.injEq, Prod.mk.injEq] at h
       obtain ⟨h1, h2⟩ := h
       subst h2
       intro x hx
       simp at hx
       omega)
    | simp at h

theorem msReplaceGo_spec (rep : ByteStr) :
    ∀ n (s : ByteStr), s.length ≤ n → validUtf8 s = true →
      msReplaceGo rep s = specReplaceSpaces rep s := by
  intro n
  induction n with
  | zero =>
    intro s hlen hv
    have hs : s = [] := List.length_eq_zero.mp (by omega)
    subst hs
    rw [msReplaceGo.eq_def]
    simp [utf8Iterate, specReplaceSpaces]
  | succ n ih =>
    intro s hlen hv
    rcases hm : utf8Iterate s with _ | ⟨cp, r⟩
    · have hs : s = [] := by
        rw [validUtf8.eq_def] at hv
        split at hv
        · simpa using hv
        · rename_i cp' r' heq
          rw [heq] at hm; cases hm
      subst hs
      rw [msReplaceGo.eq_def]
      simp [utf8Iterate, specReplaceSpaces]
    · have hb := utf8Iterate_bounds hm
      have hvd : validUtf8 (s.drop r) = true := by
        rw [validUtf8.eq_def] at hv
        split at hv
        · rename_i heq; rw [heq] at hm; cases hm
        · rename_i cp' r' heq
          rw [heq] at hm
          cases hm
          exact hv
      have hrec : msReplaceGo rep (s.drop r) = specReplaceSpaces rep (s.drop r) := by
        apply ih _ _ hvd
        simp only [List.length_drop]
        omega
      have hsplit : s = s.take r ++ s.drop r := (List.take_append_drop r s).symm
      have hspec : specReplaceSpaces rep s =
          specReplaceSpaces rep (s.take r) ++ specReplaceSpaces rep (s.drop r) := by
        conv_lhs => rw [hsplit]
        exact specReplaceSpaces_append rep _ _
      have hgo : msReplaceGo rep s =
          (if s.take r = [32] then rep else s.take r) ++ msReplaceGo rep (s.drop r) := by
        rw [msReplaceGo.eq_def]
        split
        · rename_i heq; rw [heq] at hm; cases hm
        · rename_i cp' r' heq
          rw [heq] at hm
          cases hm
          rfl
      rw [hgo, hrec, hspec]
      congr 1
      by_cases h1 : r = 1
      · subst h1
        rcases s with _ | ⟨x, tl⟩
        · simp at hb
        · simp only [List.take_succ_cons, List.take_zero]
          by_cases hx : x = 32
          · subst hx; simp [specReplaceSpaces]
          · have hne : ¬ ([x] : ByteStr) = [32] := by simpa using hx
            simp [hne, specReplaceSpaces, hx]
      · have hr2 : 2 ≤ r := by omega
        have hno := utf8Iterate_multibyte_no32 hm hr2
        have hne : ¬ s.take r = [32] := by
          intro he
          have h32 : (32 : Nat) ∈ s.take r := by rw [he]; simp
          exact hno 32 h32 rfl
        rw [if_neg hne]
        exact (specReplaceSpaces_no32 rep _ hno).symm

/-- All-ASCII byte strings are valid UTF-8. -/
theorem validUtf8_ascii : ∀ s : ByteStr, (∀ b ∈ s, b < 128) → validUtf8 s = true := by
  intro s
  induction s with
  | nil =>
    intro _
    rw [validUtf8.eq_def]
    simp [utf8Iterate]
  | cons b tl ih =>
    intro h
    have hb : b < 128 := h b (by simp)
    have hi : utf8Iterate (b :: tl) = some (b, 1) := by simp [utf8Iterate, hb]
    rw [validUtf8.eq_def]
    split
    · rename_i heq
      rw [heq] at hi
      cases hi
    · rename_i cp r heq
      rw [heq] at hi
      cases hi
      simpa using ih (fun x hx => h x (List.mem_cons_of_mem _ hx))

/-- Validity is preserved by prepending an ASCII space. -/
theorem validUtf8_cons_space {s : ByteStr} (hv : validUtf8 s = true) :
    validUtf8 (32 :: s) = true := by
  rw [validUtf8.eq_def]
  have hi : utf8Iterate (32 :: s) = some (32, 1) := by simp [utf8Iterate]
  split
  · rename_i heq; rw [heq] at hi; cases hi
  · rename_i cp r heq
    rw [heq] at hi
    cases hi
    simpa using hv

/-- C3 (amended): with `add_prefix_space = true`, the Metaspace
pre-tokenizer prepends a space to EVERY fragment that is non-empty and does
not already start with a space — not only to the first one — and then
replaces every space character of every fragment by the replacement
string. -/
theorem metaspace_every_fragment (rep : ByteStr) (splits : List ByteStr)
    (hv : ∀ s ∈ splits, validUtf8 s = true) :
    Metaspace_pre_tokenize rep true splits =
      splits.map (fun s =>
        specReplaceSpaces rep (if s ≠ [] ∧ s.head? ≠ some 32 then 32 :: s else s)) := by
  unfold Metaspace_pre_tokenize
  apply List.map_congr_left
  intro s hs
  have hvs := hv s hs
  unfold metaspaceFrag
  have hcond : (true = true ∧ s ≠ [] ∧ s.head? ≠ some 32) ↔ (s ≠ [] ∧ s.head? ≠ some 32) := by
    simp
  by_cases hc : s ≠ [] ∧ s.head? ≠ some 32
  · rw [if_pos ⟨rfl, hc.1, hc.2⟩, if_pos hc]
    exact msReplaceGo_spec rep (s.length + 1) (32 :: s) (by simp) (validUtf8_cons_space hvs)
  · have hc2 : ¬ (true = true ∧ s ≠ [] ∧ s.head? ≠ some 32) := by
      intro hcc
      exact hc ⟨hcc.2.1, hcc.2.2⟩
    rw [if_neg hc2, if_neg hc]
    exact msReplaceGo_spec rep s.length s (Nat.le_refl _) hvs

theorem metaspace_every_fragment_witness :
    (∀ s ∈ [([97] : ByteStr), [98]], validUtf8 s = true) ∧
    Metaspace_pre_tokenize [226, 150, 129] true [[97], [98]] =
      [[97], [98]].map (fun s =>
        specReplaceSpaces [226, 150, 129] (if s ≠ [] ∧ s.head? ≠ some 32 then 32 :: s else s)) := by
  have hv : ∀ s ∈ [([97] : ByteStr), [98]], validUtf8 s = true := by
    intro s hs
    apply validUtf8_ascii
    intro b hb
    simp only [List.mem_cons, List.not_mem_nil, or_false] at hs
    rcases hs with rfl | rfl <;> (simp at hb; omega)
  exact ⟨hv, metaspace_every_fragment [226, 150, 129] [[97], [98]] hv⟩

/-- C3 counterexample: on the two-fragment input `["a", "b"]` the code
prepends the space (and hence the replacement "▁") to BOTH fragments,
whereas the claim predicts it only on the first. -/
theorem metaspace_counterexample :
    Metaspace_pre_tokenize [226, 150, 129] true [[97], [98]] ≠
      specMetaspaceClaim [226, 150, 129] true [[97], [98]] := by
  have hva : validUtf8 [32, 97] = true := validUtf8_ascii _ (by decide)
  have hvb : validUtf8 [32, 98] = true := validUtf8_ascii _ (by decide)
  have e1 : metaspaceFrag [226, 150, 129] true [97] = [226, 150, 129, 97] := by
    unfold metaspaceFrag
    rw [if_pos ⟨rfl, by decide, by decide⟩]
    rw [msReplaceGo_spec [226, 150, 129] 2 [32, 97] (by norm_num) hva]
    decide
  have e2 : metaspaceFrag [226, 150, 129] true [98] = [226, 150, 129, 98] := by
    unfold metaspaceFrag
    rw [if_pos ⟨rfl, by decide, by decide⟩]
    rw [msReplaceGo_spec [226, 150, 129] 2 [32, 98] (by norm_num) hvb]
    decide
  have hL : Metaspace_pre_tokenize [226, 150, 129] true [[97], [98]] =
      [[226, 150, 129, 97], [226, 150, 129, 98]] := by
    simp [Metaspace_pre_tokenize, e1, e2]
  rw [hL]
  decide

/-! ## Split pre-tokenizer (C9)

The regex engine is out of scope (a black box): a matcher is an abstract
function `search s pos` returning the next match `(ms, me)` at or after
`pos`, with the engine contract `pos ≤ ms ≤ me ≤ s.length`
(`onig_search` searches forward from `pos` and returns byte offsets into
`s`). -/

/-- `s.substr(a, b - a)`. -/
def sExtract (s : ByteStr) (a b : Nat) : ByteStr := (s.drop a).take (b - a)

/-- The black-box contract of `OnigRegex::search` used by
`SplitPreTokenizer::pre_tokenize`: matches lie between the start offset and
the end of the string (zero-width matches allowed). -/
def SearchContract (search : ByteStr → Nat → Option (Nat × Nat)) : Prop :=
  ∀ s pos ms me, search s pos = some (ms, me) → pos ≤ ms ∧ ms ≤ me ∧ me ≤ s.length

/-- The per-fragment scanning loop of `SplitPreTokenizer::pre_tokenize`,
with an explicit fuel so that non-termination would be observable as
`none`.  The claim C9 is that with fuel `s.length + 2 - pos` the loop
always completes. -/
def splitGo (search : ByteStr → Nat → Option (Nat × Nat)) (invert isolated : Bool)
    (s : ByteStr) : Nat → Nat → Option (List ByteStr)
  | 0, _ => none
  | fuel + 1, pos =>
    if pos < s.length then
      match search s pos with
      | some (ms, me) =>
        let pieces :=
          if invert then (if ms < me then [sExtract s ms me] else [])
          else
            (if pos < ms then [sExtract s pos ms] else []) ++
            (if isolated ∧ ms < me then [sExtract s ms me] else [])
        let pos2 := if ms = me then me + 1 else me
        (splitGo search invert isolated s fuel pos2).map (fun rest => pieces ++ rest)
      | none => some [s.drop pos]
    else some []

/-- Model of `SplitPreTokenizer::pre_tokenize` over a `PreTokenizedString`
(for a valid regex; an invalid regex makes the stage a no-op). -/
def Split_pre_tokenize (search : ByteStr → Nat → Option (Nat × Nat))
    (invert isolated : Bool) (splits : List ByteStr) : List ByteStr :=
  (splits.map (fun s => (splitGo search invert isolated s (s.length + 2) 0).getD [])).flatten

/-- C9: the Split pre-tokenizer terminates on every input: under the
matcher contract the cursor strictly advances every iteration (a zero-width
match advances it by one byte), so `s.length + 2 - pos` loop steps always
complete the scan of a fragment (the fuelled loop never runs out). -/
theorem split_pre_tokenize_terminates (search : ByteStr → Nat → Option (Nat × Nat))
    (hc : SearchContract search) (invert isolated : Bool) (s : ByteStr) :
    ∀ fuel pos, pos ≤ s.length + 1 → s.length + 2 - pos ≤ fuel →
      splitGo search invert isolated s fuel pos ≠ none := by
  intro fuel
  induction fuel with
  | zero =>
    intro pos hpos hf
    omega
  | succ fuel ih =>
    intro pos hpos hf
    rw [splitGo]
    split
    · rename_i hlt
      rcases hsr : search s pos with _ | ⟨ms, me⟩
      · simp
      · have hcc := hc s pos ms me hsr
        simp only
        have hstep : splitGo search invert isolated s fuel
            (if ms = me then me + 1 else me) ≠ none := by
          apply ih
          · split <;> omega
          · split <;> omega
        rcases ho : splitGo search invert isolated s fuel
            (if ms = me then me + 1 else me) with _ | rest
        · exact absurd ho hstep
        · simp [ho]
    · simp

theorem split_pre_tokenize_terminates_witness :
    SearchContract (fun s pos => if pos < s.length then some (pos, pos) else none) ∧
    (0 ≤ ([5, 6] : ByteStr).length + 1 ∧ ([5, 6] : ByteStr).length + 2 - 0 ≤ 4) ∧
    splitGo (fun s pos => if pos < s.length then some (pos, pos) else none)
      false true [5, 6] 4 0 ≠ none := by
  have hc : SearchContract (fun s pos => if pos < s.length then some (pos, pos) else none) := by
    intro s pos ms me h
    by_cases hp : pos < s.length
    · simp only [hp, if_true] at h
      cases h
      omega
    · simp [hp] at h
  exact ⟨hc, ⟨by omega, by norm_num⟩,
    split_pre_tokenize_terminates _ hc false true [5, 6] 4 0 (by norm_num) (by norm_num)⟩

/-! ## BPE merge loop (C5) -/

/-- The `merges_` table: `std::map<std::pair<int,int>, int>` as an
association list (std::map keys are unique). -/
abbrev MergeTable := List ((Int × Int) × Int)

def lookupMerge (merges : MergeTable) (p : Int × Int) : Option Int :=
  (merges.find? (fun q => q.1 == p)).map (fun q => q.2)

/-- The rank of the adjacent pair at position `j` of the id sequence, when
both elements exist and the pair is in the merge table. -/
def adjRank (merges : MergeTable) (out : List Int) (j : Nat) : Option Int :=
  match out.drop j with
  | a :: b :: _ => lookupMerge merges (a, b)
  | _ => none

/-- The scan of one iteration of `BPEModel::tokenize`'s merge loop:
`best = -1, min_r = 1e9`, walk all adjacent pairs left to right and keep the
first index that strictly lowers the running minimum rank. -/
def findBestGo (merges : MergeTable) : List Int → Nat → Int → Option Nat → Option Nat
  | a :: b :: rest, i, minR, best =>
    match lookupMerge merges (a, b) with
    | some r =>
      if r < minR then findBestGo merges (b :: rest) (i + 1) r (some i)
      else findBestGo merges (b :: rest) (i + 1) minR best
    | none => findBestGo merges (b :: rest) (i + 1) minR best
  | _, _, _, best => best

def findBest (merges : MergeTable) (out : List Int) : Option Nat :=
  findBestGo merges out 0 (10 ^ 9) none

/-- `out[best] = nid; out.erase(out.begin() + best + 1)`. -/
def mergeAt (out : List Int) (i : Nat) (nid : Int) : List Int :=
  out.take i ++ [nid] ++ out.drop (i + 2)

theorem adjRank_none_of_short {merges : MergeTable} {out : List Int} {j : Nat}
    (h : out.length ≤ j + 1) : adjRank merges out j = none := by
  unfold adjRank
  have hlen : (out.drop j).length ≤ 1 := by
    simp only [List.length_drop]
    omega
  rcases hd : out.drop j with _ | ⟨a, _ | ⟨b, r⟩⟩
  · rfl
  · rfl
  · rw [hd] at hlen
    simp at hlen

theorem adjRank_some_len {merges : MergeTable} {out : List Int} {j : Nat} {r : Int}
    (h : adjRank merges out j = some r) : j + 2 ≤ out.length := by
  by_contra hlt
  rw [adjRank_none_of_short (by omega)] at h
  cases h

theorem adjRank_cons {merges : MergeTable} {out : List Int} {i : Nat} {a b : Int}
    {rest : List Int} (h : out.drop i = a :: b :: rest) :
    adjRank merges out i = lookupMerge merges (a, b) := by
  unfold adjRank
  rw [h]

theorem findBestGo_spec (merges : MergeTable) (out : List Int) :
    ∀ (l : List Int) (i : Nat) (minR : Int) (best : Option Nat),
      l = out.drop i →
      (∀ j r, j < i → adjRank merges out j = some r → minR ≤ r) →
      (∀ k, best = some k → k < i ∧ adjRank merges out k = some minR ∧
        ∀ j r, j < k → adjRank merges out j = some r → minR < r) →
      (best = none → minR = 10 ^ 9) →
      (match findBestGo merges l i minR best with
       | some k => ∃ r, adjRank merges out k = some r ∧
           (∀ j s, adjRank merges out j = some s → r ≤ s) ∧
           (∀ j s, j < k → adjRank merges out j = some s → r < s)
       | none => ∀ j r, adjRank merges out j = some r → (10 : Int) ^ 9 ≤ r) := by
  intro l
  induction l with
  | nil =>
    intro i minR best hl h1 h2 h3
    have hshort : ∀ j, i ≤ j → adjRank merges out j = none := by
      intro j hij
      apply adjRank_none_of_short
      have : out.length - i = 0 := by
        have := congrArg List.length hl
        simpa [List.length_drop] using this.symm
      omega
    rcases best with _ | k
    · simp only [findBestGo]
      intro j r hj
      by_cases hji : j < i
      · have := h1 j r hji hj
        rw [h3 rfl] at this
        exact this
      · rw [hshort j (by omega)] at hj
        cases hj
    · simp only [findBestGo]
      obtain ⟨hk, hkr, hkmin⟩ := h2 k rfl
      refine ⟨minR, hkr, ?_, ?_⟩
      · intro j sr hj
        by_cases hji : j < i
        · exact h1 j sr hji hj
        · rw [hshort j (by omega)] at hj
          cases hj
      · intro j sr hjk hj
        exact hkmin j sr hjk hj
  | cons a l' ih =>
    intro i minR best hl h1 h2 h3
    rcases l' with _ | ⟨b, rest⟩
    · -- single element left: no pair, return best
      have hshort : ∀ j, i ≤ j → adjRank merges out j = none := by
        intro j hij
        apply adjRank_none_of_short
        have := congrArg List.length hl
        simp only [List.length_cons, List.length_nil, List.length_drop] at this
        omega
      rcases best with _ | k
      · simp only [findBestGo]
        intro j r hj
        by_cases hji : j < i
        · have := h1 j r hji hj
          rw [h3 rfl] at this
          exact this
        · rw [hshort j (by omega)] at hj
          cases hj
      · simp only [findBestGo]
        obtain ⟨hk, hkr, hkmin⟩ := h2 k rfl
        refine ⟨minR, hkr, ?_, ?_⟩
        · intro j sr hj
          by_cases hji : j < i
          · exact h1 j sr hji hj
          · rw [hshort j (by omega)] at hj
            cases hj
        · intro j sr hjk hj
          exact hkmin j sr hjk hj
    · -- at least one pair: one scan step
      have hdrop : out.drop (i + 1) = b :: rest := by
        have ht := List.tail_drop out i
        rw [← hl] at ht
        simpa using ht.symm
      have hcur : adjRank merges out i = lookupMerge merges (a, b) :=
        adjRank_cons hl.symm
      simp only [findBestGo]
      rcases hlk : lookupMerge merges (a, b) with _ | r
      · -- pair not in table: skip
        simp only [hlk]
        apply ih (i + 1) minR best hdrop.symm
        · intro j rr hj hadj
          by_cases hji : j < i
          · exact h1 j rr hji hadj
          · have hji2 : j = i := by omega
            subst hji2
            rw [hcur, hlk] at hadj
            cases hadj
        · intro k hb
          obtain ⟨hk, hkr, hkmin⟩ := h2 k hb
          exact ⟨by omega, hkr, hkmin⟩
        · exact h3
      · simp only [hlk]
        by_cases hrlt : r < minR
        · -- strict improvement: take pair i
          rw [if_pos hrlt]
          apply ih (i + 1) r (some i) hdrop.symm
          · intro j rr hj hadj
            by_cases hji : j < i
            · have := h1 j rr hji hadj
              omega
            · have hji2 : j = i := by omega
              subst hji2
              rw [hcur, hlk] at hadj
              cases hadj
              omega
          · intro k hb
            cases hb
            refine ⟨by omega, by rw [hcur, hlk], ?_⟩
            intro j rr hj hadj
            have := h1 j rr hj hadj
            omega
          · intro hb
            cases hb
        · -- no improvement
          rw [if_neg hrlt]
          apply ih (i + 1) minR best hdrop.symm
          · intro j rr hj hadj
            by_cases hji : j < i
            · exact h1 j rr hji hadj
            · have hji2 : j = i := by omega
              subst hji2
              rw [hcur, hlk] at hadj
              cases hadj
              omega
          · intro k hb
            obtain ⟨hk, hkr, hkmin⟩ := h2 k hb
            exact ⟨by omega, hkr, hkmin⟩
          · exact h3

theorem findBest_spec (merges : MergeTable) (out : List Int) :
    (match findBest merges out with
     | some k => ∃ r, adjRank merges out k = some r ∧
         (∀ j s, adjRank merges out j = some s → r ≤ s) ∧
         (∀ j s, j < k → adjRank merges out j = some s → r < s)
     | none => ∀ j r, adjRank merges out j = some r → (10 : Int) ^ 9 ≤ r) := by
  have := findBestGo_spec merges out out 0 (10 ^ 9) none (by simp)
    (by intro j r hj; omega) (by intro k hk; cases hk) (by intro; rfl)
  exact this

theorem findBest_some_bound {merges : MergeTable} {out : List Int} {i : Nat}
    (h : findBest merges out = some i) : i + 2 ≤ out.length := by
  have hs := findBest_spec merges out
  rw [h] at hs
  obtain ⟨r, hr, _, _⟩ := hs
  exact adjRank_some_len hr

/-- The merge loop of `BPEModel::tokenize`, fuel-indexed: each successful
merge removes exactly one element, so `out.length` steps always suffice. -/
def bpeMergeGo (vocab : List (ByteStr × Int)) (merges : MergeTable) :
    Nat → List Int → List Int
  | 0, out => out
  | fuel + 1, out =>
    if out.length ≤ 1 then out
    else
      match findBest merges out with
      | none => out
      | some i =>
        if BPE_token_to_id vocab (BPE_id_to_token vocab (out.getD i 0) ++
             BPE_id_to_token vocab (out.getD (i + 1) 0)) = -1 then out
        else bpeMergeGo vocab merges fuel
          (mergeAt out i (BPE_token_to_id vocab (BPE_id_to_token vocab (out.getD i 0) ++
             BPE_id_to_token vocab (out.getD (i + 1) 0))))

/-- The `while (out.size() > 1)` merge loop of `BPEModel::tokenize`. -/
def bpeMergeLoop (vocab : List (ByteStr × Int)) (merges : MergeTable)
    (out : List Int) : List Int :=
  bpeMergeGo vocab merges out.length out

theorem mergeAt_length {out : List Int} {i : Nat} {nid : Int}
    (h : i + 2 ≤ out.length) : (mergeAt out i nid).length = out.length - 1 := by
  simp only [mergeAt, List.length_append, List.length_take, List.length_drop,
    List.length_cons, List.length_nil]
  omega

theorem bpeMergeLoop_eq (vocab : List (ByteStr × Int)) (merges : MergeTable)
    (out : List Int) :
    bpeMergeLoop vocab merges out =
      if out.length ≤ 1 then out
      else
        match findBest merges out with
        | none => out
        | some i =>
          if BPE_token_to_id vocab (BPE_id_to_token vocab (out.getD i 0) ++
               BPE_id_to_token vocab (out.getD (i + 1) 0)) = -1 then out
          else bpeMergeLoop vocab merges
            (mergeAt out i (BPE_token_to_id vocab (BPE_id_to_token vocab (out.getD i 0) ++
               BPE_id_to_token vocab (out.getD (i + 1) 0)))) := by
  rcases out with _ | ⟨x, xs⟩
  · simp [bpeMergeLoop, bpeMergeGo]
  · show bpeMergeGo vocab merges (x :: xs).length (x :: xs) = _
    conv_lhs => rw [List.length_cons]
    rw [bpeMergeGo]
    by_cases hle : (x :: xs).length ≤ 1
    · rw [if_pos hle, if_pos hle]
    · rw [if_neg hle, if_neg hle]
      rcases hb : findBest merges (x :: xs) with _ | i
      · rfl
      · simp only
        by_cases hnid : BPE_token_to_id vocab (BPE_id_to_token vocab ((x :: xs).getD i 0) ++
            BPE_id_to_token vocab ((x :: xs).getD (i + 1) 0)) = -1
        · rw [if_pos hnid, if_pos hnid]
        · rw [if_neg hnid, if_neg hnid]
          unfold bpeMergeLoop
          congr 1
          have hlen := findBest_some_bound hb
          rw [mergeAt_length hlen]
          simp

/-- C5: each merge iteration of `BPEModel::tokenize` selects, among
adjacent id pairs with a rank in the merge table, the pair with the
smallest rank, breaking ties by leftmost occurrence; if no adjacent pair
has a rank the loop stops, if the concatenation of the chosen pair's token
strings is not in the vocabulary it stops, and otherwise the pair is
replaced by the merged id and the scan repeats.  (The scan's initial
minimum is the literal `1e9`, so ranks are assumed below `10^9`; the loader
assigns ranks `0, 1, 2, …` so this always holds for a loaded table.) -/
theorem bpe_merge_selection (vocab : List (ByteStr × Int)) (merges : MergeTable)
    (hr : ∀ p r, lookupMerge merges p = some r → r < 10 ^ 9) :
    (∀ (out : List Int) (i : Nat), findBest merges out = some i →
      ∃ r, adjRank merges out i = some r ∧
        (∀ j s, adjRank merges out j = some s → r ≤ s) ∧
        (∀ j s, j < i → adjRank merges out j = some s → r < s)) ∧
    (∀ out : List Int, findBest merges out = none → ∀ j, adjRank merges out j = none) ∧
    (∀ out : List Int,
      bpeMergeLoop vocab merges out =
        if out.length ≤ 1 then out
        else
          match findBest merges out with
          | none => out
          | some i =>
            if BPE_token_to_id vocab (BPE_id_to_token vocab (out.getD i 0) ++
                 BPE_id_to_token vocab (out.getD (i + 1) 0)) = -1 then out
            else bpeMergeLoop vocab merges
              (mergeAt out i (BPE_token_to_id vocab (BPE_id_to_token vocab (out.getD i 0) ++
                 BPE_id_to_token vocab (out.getD (i + 1) 0))))) := by
  refine ⟨?_, ?_, fun out => bpeMergeLoop_eq vocab merges out⟩
  · intro out i h
    have hs := findBest_spec merges out
    rw [h] at hs
    exact hs
  · intro out h j
    have hs := findBest_spec merges out
    rw [h] at hs
    rcases ha : adjRank merges out j with _ | r
    · rfl
    · exfalso
      have h1 := hs j r ha
      unfold adjRank at ha
      rcases hd : out.drop j with _ | ⟨a, _ | ⟨b, rest⟩⟩ <;> rw [hd] at ha
      · cases ha
      · cases ha
      · have := hr (a, b) r ha
        omega

theorem bpe_merge_selection_witness :
    (∀ p r, lookupMerge [((1, 2), 0)] p = some r → r < 10 ^ 9) ∧
    (∀ j, adjRank [((1, 2), 0)] ([5, 6] : List Int) j = none) := by
  have hr : ∀ p r, lookupMerge [((1, 2), 0)] p = some r → r < 10 ^ 9 := by
    intro p r h
    by_cases hp : (((1, 2) : Int × Int) == p) = true
    · simp [lookupMerge, List.find?, hp] at h
      omega
    · simp only [Bool.not_eq_true] at hp
      simp [lookupMerge, List.find?, hp] at h
  refine ⟨hr, ?_⟩
  exact (bpe_merge_selection [] [((1, 2), 0)] hr).2.1 [5, 6] (by decide)

/-! ## Unigram model (C6)

Scores (`double` in the source) are modelled as rationals; the Viterbi
comparisons (`-1e18` initial value, `-1e17` reachability threshold,
`-10.0` default unk score) are exact in both models. -/

/-- Uppercase hex digit, as produced by `snprintf("%02X")`. -/
def hexDigit (n : Nat) : Nat := if n < 10 then 48 + n else 55 + n

/-- The byte-fallback token `"<0xHH>"` for byte `b`. -/
def hexToken (b : Nat) : ByteStr := [60, 48, 120, hexDigit (b / 16), hexDigit (b % 16), 62]

/-- `scores_[i]` (always called with an in-range index in the source). -/
def ugScoreAt (entries : UgEntries) (i : Nat) : ℚ :=
  ((entries.get? i).map (fun e => e.2)).getD 0

/-- The unk score of `UnigramModel::tokenize`:
`(unk_token_id_ < (int)scores_.size()) ? scores_[unk_token_id_] : -10.0`
(a negative `unk_token_id_` would index out of bounds in the source, which
is undefined behaviour; it is modelled as the −10 default). -/
def ugUnkScore (entries : UgEntries) (unkId : Int) : ℚ :=
  if unkId < (entries.length : Int) then
    (if 0 ≤ unkId then ugScoreAt entries unkId.toNat else -10)
  else -10

/-- `max_token_len_`: longest entry token in bytes. -/
def ugMaxTokenLen (entries : UgEntries) : Nat :=
  entries.foldl (fun m e => max m e.1.length) 0

/-- The inner loop of the Viterbi: `j` descending from `i-1` to
`start_len`, updating the running best `(score, prev, id)` for position `i`. -/
def ugInner (entries : UgEntries) (unkId : Int) (bf : Bool) (text : ByteStr)
    (bs : List ℚ) (i : Nat) : List Nat → (ℚ × Nat × Int) → (ℚ × Nat × Int)
  | [], acc => acc
  | j :: js, acc =>
    if bs.getD j (-(10 ^ 18)) ≤ -(10 ^ 17) then
      ugInner entries unkId bf text bs i js acc
    else
      match
        (match ugLookup entries ((text.drop j).take (i - j)) with
         | some tid => some ((tid : Int), ugScoreAt entries tid)
         | none =>
           if bf ∧ i - j = 1 then
             some
               (match ugLookup entries (hexToken (text.getD j 0)) with
                | some tid => ((tid : Int), ugScoreAt entries tid)
                | none => (unkId, ugUnkScore entries unkId))
           else none) with
      | none => ugInner entries unkId bf text bs i js acc
      | some (tid, score) =>
        if bs.getD j (-(10 ^ 18)) + score > acc.1 ∨ acc.1 ≤ -(10 ^ 17) then
          ugInner entries unkId bf text bs i js (bs.getD j (-(10 ^ 18)) + score, j, tid)
        else ugInner entries unkId bf text bs i js acc

/-- The `char_len` computation of the unreachable-position fallback: find
the first non-continuation byte at `i - k` for `k = 1..4` and accept `k`
only if it equals the expected length of that lead byte. -/
def ugCharLen (text : ByteStr) (i : Nat) (k : Nat) : Nat :=
  if k > 4 ∨ i < k then 1
  else
    if text.getD (i - k) 0 &&& 0xC0 ≠ 0x80 then
      (if (if text.getD (i - k) 0 ≥ 0xF0 then 4
           else if text.getD (i - k) 0 ≥ 0xE0 then 3
           else if text.getD (i - k) 0 ≥ 0xC0 then 2 else 1) = k
       then k else 1)
    else ugCharLen text i (k + 1)
  termination_by 5 - k

/-- One outer Viterbi step (position `i`): inner scan over `j`, then the
forced unk fallback when position `i` is still unreachable; appends the
chosen `(best_score, best_id, best_prev_pos)` for index `i`. -/
def ugOuterStep (entries : UgEntries) (unkId : Int) (bf : Bool) (text : ByteStr)
    (maxLen : Nat) (st : List ℚ × List Int × List Nat) (i : Nat) :
    List ℚ × List Int × List Nat :=
  let bs := st.1
  let bi := st.2.1
  let bp := st.2.2
  let startLen := if i > maxLen then i - maxLen else 0
  let first := ugInner entries unkId bf text bs i
    ((List.range' startLen (i - startLen)).reverse) (-(10 ^ 18), 0, -1)
  let final :=
    if first.1 ≤ -(10 ^ 17) then
      (let cl := ugCharLen text i 1
       let prev := bs.getD (i - cl) (-(10 ^ 18))
       if prev > -(10 ^ 17) then (prev + ugUnkScore entries unkId, i - cl, unkId)
       else first)
    else first
  (bs ++ [final.1], bi ++ [final.2.2], bp ++ [final.2.1])

/-- The whole Viterbi forward pass: arrays
`(best_scores, best_ids, best_prev_pos)`, index 0 seeded with
`(0, −1, 0)`. -/
def ugRun (entries : UgEntries) (unkId : Int) (bf : Bool) (text : ByteStr) :
    List ℚ × List Int × List Nat :=
  (List.range' 1 text.length).foldl
    (ugOuterStep entries unkId bf text (ugMaxTokenLen entries)) ([0], [-1], [0])

/-- The backtracking loop: follow `best_prev_pos` from `n` down to 0,
pushing ids but merging consecutive unk ids into one
(`out.empty() || id != unk || out.back() != unk`).  Fuelled: `prev[cur] < cur`
for every reachable position, so `n + 1` steps suffice. -/
def ugBacktrack (bi : List Int) (bp : List Nat) (unkId : Int) :
    Nat → Nat → List Int → List Int
  | 0, _, out => out
  | fuel + 1, cur, out =>
    if cur = 0 then out
    else
      ugBacktrack bi bp unkId fuel (bp.getD cur 0)
        (if out = [] ∨ bi.getD cur (-1) ≠ unkId ∨ out.getLast? ≠ some unkId
         then out ++ [bi.getD cur (-1)] else out)

/-- Model of `UnigramModel::tokenize`. -/
def Unigram_tokenize (entries : UgEntries) (unkId : Int) (bf : Bool)
    (text : ByteStr) : List Int :=
  if text = [] then []
  else
    if (ugRun entries unkId bf text).1.getD text.length (-(10 ^ 18)) ≤ -(10 ^ 17) then []
    else
      (ugBacktrack (ugRun entries unkId bf text).2.1 (ugRun entries unkId bf text).2.2
        unkId (text.length + 1) text.length []).reverse

/-- No-two-consecutive-unks as a chain relation. -/
def NoAdjUnk (unkId : Int) : Int → Int → Prop :=
  fun a b => ¬(a = unkId ∧ b = unkId)

theorem ugBacktrack_chain (bi : List Int) (bp : List Nat) (unkId : Int) :
    ∀ (fuel cur : Nat) (out : List Int), List.Chain' (NoAdjUnk unkId) out →
      List.Chain' (NoAdjUnk unkId) (ugBacktrack bi bp unkId fuel cur out) := by
  intro fuel
  induction fuel with
  | zero =>
    intro cur out h
    exact h
  | succ fuel ih =>
    intro cur out h
    rw [ugBacktrack]
    split
    · exact h
    · apply ih
      split
      · rename_i hcond
        rw [List.chain'_append]
        refine ⟨h, List.chain'_singleton _, ?_⟩
        intro x hx y hy
        simp only [List.head?_cons, Option.mem_def, Option.some.injEq] at hy
        subst hy
        intro ⟨hxu, hyu⟩
        rcases hcond with hnil | hne | hlast
        · rw [hnil] at hx
          simp at hx
        · exact hne hyu
        · apply hlast
          rw [hx]
          rw [hxu]
      · exact h

/-- C6: for every input fragment the id sequence returned by Unigram
tokenize never contains two consecutive occurrences of `unk_id`: during
backtracking, consecutive unk ids are merged into a single unk. -/
theorem unigram_no_consecutive_unk (entries : UgEntries) (unkId : Int)
    (bf : Bool) (text : ByteStr) :
    List.Chain' (NoAdjUnk unkId) (Unigram_tokenize entries unkId bf text) := by
  unfold Unigram_tokenize
  split
  · exact List.chain'_nil
  · split
    · exact List.chain'_nil
    · rw [List.chain'_reverse]
      have := ugBacktrack_chain (ugRun entries unkId bf text).2.1
        (ugRun entries unkId bf text).2.2 unkId (text.length + 1) text.length []
        List.chain'_nil
      apply List.Chain'.imp _ this
      intro a b hab
      intro ⟨hb, ha⟩
      exact hab ⟨ha, hb⟩

/-! ## Added tokens and the tokenizer facade (C10, C1) -/

/-- An entry of the facade's added-token table. -/
structure AddedTok where
  id : Int
  content : ByteStr
  special : Bool
  lstrip : Bool
  rstrip : Bool
  normalized : Bool

/-- C `isspace` in the default locale (ASCII whitespace). -/
def isAsciiSpace (b : Nat) : Bool :=
  (b == 32) || (b == 9) || (b == 10) || (b == 11) || (b == 12) || (b == 13)

/-- The lstrip trimming of `Impl::encode`:
`while (prefix_end > prefix_start && isspace(text[prefix_end-1])) prefix_end--`. -/
def trimEnd (text : ByteStr) (ps : Nat) (pe : Nat) : Nat :=
  if ps < pe ∧ isAsciiSpace (text.getD (pe - 1) 0) then trimEnd text ps (pe - 1)
  else pe
  termination_by pe

/-- The rstrip skipping of `Impl::encode`:
`while (next_start < text.length() && isspace(text[next_start])) next_start++`. -/
def skipSpaces (text : ByteStr) (ns : Nat) : Nat :=
  if ns < text.length ∧ isAsciiSpace (text.getD ns 0) then skipSpaces text (ns + 1)
  else ns
  termination_by text.length - ns

/-- The unit-splitting loop of `PreTrainedTokenizer::Impl::encode` (step 1):
scan for added-token matches, producing `(slice, is_added_token)` units.
Fuelled; with the real added-token regex (an alternation of non-empty
literals) every iteration advances, and `text.length + 1` steps suffice. -/
def encodeUnitsGo (matcher : Option (ByteStr → Nat → Option (Nat × Nat)))
    (addedToks : List AddedTok) (text : ByteStr) :
    Nat → Nat → List (ByteStr × Bool) → List (ByteStr × Bool)
  | 0, _, acc => acc
  | fuel + 1, last, acc =>
    if last < text.length then
      match matcher with
      | some search =>
        match search text last with
        | some (ms, me) =>
          encodeUnitsGo matcher addedToks text fuel
            (match addedToks.find? (fun a => a.content == sExtract text ms me) with
             | some a => if a.rstrip then skipSpaces text me else me
             | none => me)
            ((acc ++
              (if last <
                  (match addedToks.find? (fun a => a.content == sExtract text ms me) with
                   | some a => if a.lstrip then trimEnd text last ms else ms
                   | none => ms) then
                [(sExtract text last
                    (match addedToks.find? (fun a => a.content == sExtract text ms me) with
                     | some a => if a.lstrip then trimEnd text last ms else ms
                     | none => ms), false)]
              else [])) ++ [(sExtract text ms me, true)])
        | none => acc ++ [(text.drop last, false)]
      | none => acc ++ [(text.drop last, false)]
    else acc

/-- Model of `PreTrainedTokenizer::Impl::encode`: the normalizer,
pre-tokenizer and model stages are the abstract functions wired in by the
loader (`none` = stage absent). -/
def PreTrainedTokenizer_encode (matcher : Option (ByteStr → Nat → Option (Nat × Nat)))
    (addedToks : List AddedTok) (norm : Option (ByteStr → ByteStr))
    (preTok : Option (List ByteStr → List ByteStr)) (modelTok : ByteStr → List Int)
    (facadeTokenToId : ByteStr → Int) (bos eos : Int)
    (text : ByteStr) (addSpecial : Bool) : List Int :=
  if text = [] then []
  else
    (if addSpecial ∧ bos ≠ -1 then [bos] else []) ++
    ((encodeUnitsGo matcher addedToks text (text.length + 1) 0 []).map (fun u =>
      if u.2 then
        (if facadeTokenToId u.1 ≠ -1 then [facadeTokenToId u.1] else [])
      else
        (if (match norm with | some nf => nf u.1 | none => u.1) = [] then []
         else
           (((match preTok with
              | some pf => pf [(match norm with | some nf => nf u.1 | none => u.1)]
              | none => [(match norm with | some nf => nf u.1 | none => u.1)]).map
             modelTok).flatten)))).flatten ++
    (if addSpecial ∧ eos ≠ -1 then [eos] else [])

/-- Model of `PreTrainedTokenizer::decode`: skip added-and-special ids when
requested, materialize non-empty token strings, run the decoder chain,
concatenate. -/
def PreTrainedTokenizer_decode (addedToks : List AddedTok)
    (modelIdToToken : Int → ByteStr) (decoderFn : List ByteStr → List ByteStr)
    (ids : List Int) (skip : Bool) : ByteStr :=
  (decoderFn (ids.filterMap (fun id =>
    if skip ∧ addedToks.any (fun a => a.id == id && a.special) then none
    else
      if modelIdToToken id = [] then none else some (modelIdToToken id)))).flatten

/-- C10: encode of the empty string returns the empty id sequence — even
with `add_special_tokens = true` and configured bos/eos ids, no special
token is emitted for empty input (the guard `if (text.empty()) return {}`
runs before the bos emission). -/
theorem encode_empty_no_specials (matcher : Option (ByteStr → Nat → Option (Nat × Nat)))
    (addedToks : List AddedTok) (norm : Option (ByteStr → ByteStr))
    (preTok : Option (List ByteStr → List ByteStr)) (modelTok : ByteStr → List Int)
    (facadeTokenToId : ByteStr → Int) (bos eos : Int) :
    PreTrainedTokenizer_encode matcher addedToks norm preTok modelTok
      facadeTokenToId bos eos [] true = [] := by
  simp [PreTrainedTokenizer_encode]

/-! ## ByteLevel pre-tokenizer, BPE model and ByteLevel decoder (C1) -/

/-- The contract of the fixed GPT-2 pattern held by
`ByteLevelPreTokenizer`: matches are within bounds and never empty (every
alternative of the pattern consumes at least one character). -/
def SearchContractPos (search : ByteStr → Nat → Option (Nat × Nat)) : Prop :=
  ∀ s pos ms me, search s pos = some (ms, me) → pos ≤ ms ∧ ms < me ∧ me ≤ s.length

/-- The regex-splitting loop of `ByteLevelPreTokenizer::pre_tokenize` (the
zero-width `last_pos++` branch is kept for fidelity although the contract
makes it dead). -/
def blSplitGo (search : ByteStr → Nat → Option (Nat × Nat))
    (hs : SearchContractPos search) (s : ByteStr) (pos : Nat) : List ByteStr :=
  if h : pos < s.length then
    match hm : search s pos with
    | some (ms, me) =>
      (if pos < ms then [sExtract s pos ms] else []) ++
      (if ms < me then [sExtract s ms me] else []) ++
      blSplitGo search hs s (if ms = me then me + 1 else me)
    | none => [s.drop pos]
  else []
  termination_by s.length - pos
  decreasing_by
    have := hs s pos ms me hm
    split <;> omega

/-- Byte-alphabet remapping of one fragment
(`for (unsigned char b : s) out += byte_map[b]`). -/
def remapFrag (s : ByteStr) : ByteStr := (s.map bytesCharMap).flatten

/-- Model of `ByteLevelPreTokenizer::pre_tokenize`: optional regex
splitting (dropping empty input fragments), then byte remapping of every
fragment. -/
def ByteLevel_pre_tokenize (useRegex : Bool) (search : ByteStr → Nat → Option (Nat × Nat))
    (hs : SearchContractPos search) (splits : List ByteStr) : List ByteStr :=
  (if useRegex then
    ((splits.filter (fun s => !s.isEmpty)).map (fun s => blSplitGo search hs s 0)).flatten
   else splits).map remapFrag

theorem sExtract_append_extract {s : ByteStr} {a b c : Nat} (h1 : a ≤ b) (h2 : b ≤ c) :
    sExtract s a b ++ sExtract s b c = sExtract s a c := by
  unfold sExtract
  have hd : s.drop b = (s.drop a).drop (b - a) := by
    rw [List.drop_drop]
    congr 1
    omega
  rw [hd, show c - a = (b - a) + (c - b) from by omega, List.take_add]

theorem sExtract_append_drop {s : ByteStr} {a b : Nat} (h : a ≤ b) :
    sExtract s a b ++ s.drop b = s.drop a := by
  unfold sExtract
  rw [show s.drop b = (s.drop a).drop (b - a) from by rw [List.drop_drop]; congr 1; omega]
  exact List.take_append_drop _ _

theorem blSplitGo_flatten (search : ByteStr → Nat → Option (Nat × Nat))
    (hs : SearchContractPos search) (s : ByteStr) :
    ∀ n pos, s.length - pos ≤ n →
      (blSplitGo search hs s pos).flatten = s.drop pos := by
  intro n
  induction n with
  | zero =>
    intro pos hn
    rw [blSplitGo.eq_def, dif_neg (by omega)]
    rw [List.drop_eq_nil_of_le (by omega)]
    rfl
  | succ n ih =>
    intro pos hn
    rw [blSplitGo.eq_def]
    split
    · rename_i hlt
      split
      · rename_i ms me heq
        have hcc := hs s pos ms me heq
        have hpos2 : (if ms = me then me + 1 else me) = me := if_neg (by omega)
        rw [hpos2, if_pos hcc.2.1]
        have hrec : (blSplitGo search hs s me).flatten = s.drop me := by
          apply ih
          omega
        simp only [List.flatten_append, List.flatten_cons, List.flatten_nil, List.append_nil]
        rw [hrec]
        by_cases hpm : pos < ms
        · rw [if_pos hpm]
          simp only [List.flatten_cons, List.flatten_nil, List.append_nil, List.append_assoc]
          rw [sExtract_append_drop (by omega), sExtract_append_drop (by omega)]
        · have hpe : pos = ms := by omega
          rw [if_neg hpm]
          simp only [List.flatten_nil, List.nil_append]
          rw [hpe]
          exact sExtract_append_drop (by omega)
      · simp
    · rename_i hge
      rw [List.drop_eq_nil_of_le (by omega)]
      rfl

theorem blSplitGo_subset (search : ByteStr → Nat → Option (Nat × Nat))
    (hs : SearchContractPos search) (s : ByteStr) :
    ∀ n pos, s.length - pos ≤ n →
      ∀ q ∈ blSplitGo search hs s pos, ∀ b ∈ q, b ∈ s := by
  intro n
  induction n with
  | zero =>
    intro pos hn q hq
    rw [blSplitGo.eq_def, dif_neg (by omega)] at hq
    cases hq
  | succ n ih =>
    intro pos hn q hq
    rw [blSplitGo.eq_def] at hq
    split at hq
    · rename_i hlt
      split at hq
      · rename_i ms me heq
        have hcc := hs s pos ms me heq
        simp only [List.mem_append] at hq
        rcases hq with (hq | hq) | hq
        · intro b hb
          split at hq
          · simp only [List.mem_singleton] at hq
            subst hq
            exact List.drop_subset _ _ (List.take_subset _ _ hb)
          · cases hq
        · intro b hb
          split at hq
          · simp only [List.mem_singleton] at hq
            subst hq
            exact List.drop_subset _ _ (List.take_subset _ _ hb)
          · cases hq
        · exact ih (if ms = me then me + 1 else me) (by split <;> omega) q hq
      · simp only [List.mem_singleton] at hq
        subst hq
        intro b hb
        exact List.drop_subset _ _ hb
    · cases hq

/-- The code-point seeding loop of `BPEModel::tokenize` when the input is
NOT byte-level remapped by the model itself: per code point, try the raw
code-point bytes as a token; on a miss (or invalid UTF-8) fall back to the
per-byte `<0xHH>` tokens, silently dropping bytes whose fallback token is
also absent. -/
def bpeSeedCpGo (vocab : List (ByteStr × Int)) : Nat → ByteStr → List Int
  | 0, _ => []
  | fuel + 1, text =>
    match text with
    | [] => []
    | b :: rest =>
      match utf8Iterate (b :: rest) with
      | none =>
        (if BPE_token_to_id vocab (hexToken b) = -1 then []
         else [BPE_token_to_id vocab (hexToken b)]) ++ bpeSeedCpGo vocab fuel rest
      | some (cp, r) =>
        (if BPE_token_to_id vocab ((b :: rest).take r) = -1 then
           ((b :: rest).take r).filterMap (fun b2 =>
             if BPE_token_to_id vocab (hexToken b2) = -1 then none
             else some (BPE_token_to_id vocab (hexToken b2)))
         else [BPE_token_to_id vocab ((b :: rest).take r)]) ++
        bpeSeedCpGo vocab fuel ((b :: rest).drop r)

def bpeSeedCp (vocab : List (ByteStr × Int)) (text : ByteStr) : List Int :=
  bpeSeedCpGo vocab text.length text

theorem bpeSeedCpGo_fuel (vocab : List (ByteStr × Int)) :
    ∀ (f1 f2 : Nat) (text : ByteStr), text.length ≤ f1 → text.length ≤ f2 →
      bpeSeedCpGo vocab f1 text = bpeSeedCpGo vocab f2 text := by
  intro f1
  induction f1 with
  | zero =>
    intro f2 text h1 h2
    have ht : text = [] := List.length_eq_zero.mp (by omega)
    subst ht
    rcases f2 with _ | m <;> rfl
  | succ n ih =>
    intro f2 text h1 h2
    rcases f2 with _ | m
    · have ht : text = [] := List.length_eq_zero.mp (by omega)
      subst ht
      rfl
    · rcases text with _ | ⟨b, rest⟩
      · rfl
      · simp only [bpeSeedCpGo]
        rcases hu : utf8Iterate (b :: rest) with _ | ⟨cp, r⟩
        · simp only [hu]
          congr 1
          apply ih
          · simp only [List.length_cons] at h1
            omega
          · simp only [List.length_cons] at h2
            omega
        · have hb := utf8Iterate_bounds hu
          simp only [List.length_cons] at hb h1 h2
          simp only [hu]
          congr 1
          apply ih
          · simp only [List.length_drop, List.length_cons]
            omega
          · simp only [List.length_drop, List.length_cons]
            omega

/-- The byte-level seeding of `BPEModel::tokenize` when `use_byte_level_`:
map every raw byte through the byte alphabet and look the single-code-point
string up in the vocab, dropping misses. -/
def bpeSeedByteLevel (vocab : List (ByteStr × Int)) (text : ByteStr) : List Int :=
  text.filterMap (fun b =>
    if BPE_token_to_id vocab (bytesCharMap b) = -1 then none
    else some (BPE_token_to_id vocab (bytesCharMap b)))

/-- Model of `BPEModel::tokenize` (the mutable result cache is pure
memoization and is omitted). -/
def BPEModel_tokenize (vocab : List (ByteStr × Int)) (merges : MergeTable)
    (useByteLevel : Bool) (text : ByteStr) : List Int :=
  if text = [] then []
  else bpeMergeLoop vocab merges
    (if useByteLevel then bpeSeedByteLevel vocab text else bpeSeedCp vocab text)

/-- Model of one token of `ByteLevelDecoder::decode`: read code points,
map each one back through the inverse byte alphabet (pass-through for
characters outside the alphabet, and for invalid bytes). -/
def byteLevelDecodeGo : Nat → ByteStr → ByteStr
  | 0, _ => []
  | fuel + 1, t =>
    match t with
    | [] => []
    | b :: rest =>
      match utf8Iterate (b :: rest) with
      | none => b :: byteLevelDecodeGo fuel rest
      | some (cp, r) =>
        (match byteOfChar ((b :: rest).take r) with
         | some b2 => [b2]
         | none => (b :: rest).take r) ++ byteLevelDecodeGo fuel ((b :: rest).drop r)

def byteLevelDecodeTok (t : ByteStr) : ByteStr :=
  byteLevelDecodeGo t.length t

theorem byteLevelDecodeGo_fuel :
    ∀ (f1 f2 : Nat) (t : ByteStr), t.length ≤ f1 → t.length ≤ f2 →
      byteLevelDecodeGo f1 t = byteLevelDecodeGo f2 t := by
  intro f1
  induction f1 with
  | zero =>
    intro f2 t h1 h2
    have ht : t = [] := List.length_eq_zero.mp (by omega)
    subst ht
    rcases f2 with _ | m <;> rfl
  | succ n ih =>
    intro f2 t h1 h2
    rcases f2 with _ | m
    · have ht : t = [] := List.length_eq_zero.mp (by omega)
      subst ht
      rfl
    · rcases t with _ | ⟨b, rest⟩
      · rfl
      · simp only [byteLevelDecodeGo]
        rcases hu : utf8Iterate (b :: rest) with _ | ⟨cp, r⟩
        · simp only [hu]
          congr 1
          apply ih
          · simp only [List.length_cons] at h1
            omega
          · simp only [List.length_cons] at h2
            omega
        · have hb := utf8Iterate_bounds hu
          simp only [List.length_cons] at hb h1 h2
          simp only [hu]
          congr 1
          apply ih
          · simp only [List.length_drop, List.length_cons]
            omega
          · simp only [List.length_drop, List.length_cons]
            omega

/-- Model of `ByteLevelDecoder::decode` over the token list. -/
def ByteLevelDecoder_decode (toks : List ByteStr) : List ByteStr :=
  toks.map byteLevelDecodeTok

/-! ## Roundtrip invariants (C1) -/

theorem nodup_map_eq {α β : Type} {f : α → β} {l : List α} (h : (l.map f).Nodup) :
    ∀ x ∈ l, ∀ y ∈ l, f x = f y → x = y := by
  induction l with
  | nil => intro x hx; cases hx
  | cons a t ih =>
    simp only [List.map_cons, List.nodup_cons] at h
    intro x hx y hy hf
    rcases List.mem_cons.mp hx with hxa | hx <;> rcases List.mem_cons.mp hy with hya | hy
    · rw [hxa, hya]
    · exfalso
      apply h.1
      have hfa : f a = f y := by rw [← hxa, hf]
      rw [hfa]
      exact List.mem_map_of_mem f hy
    · exfalso
      apply h.1
      have hfa : f a = f x := by rw [← hya, ← hf]
      rw [hfa]
      exact List.mem_map_of_mem f hx
    · exact ih h.2 x hx y hy hf

/-- The two directions of the vocab/inverse-vocab correspondence, valid
when tokens and ids are both duplicate-free (the spec's vocab-bijection
invariant). -/
theorem BPE_vocab_inverse {vocab : List (ByteStr × Int)} {t : ByteStr} {i : Int}
    (hnt : (vocab.map (fun p => p.1)).Nodup) (hni : (vocab.map (fun p => p.2)).Nodup)
    (hm : (t, i) ∈ vocab) :
    BPE_token_to_id vocab t = i ∧ BPE_id_to_token vocab i = t := by
  constructor
  · rw [BPE_token_to_id, lookupTok_mem hnt hm]
    rfl
  · unfold BPE_id_to_token
    have hfind : vocab.reverse.find? (fun p => p.2 == i) = some (t, i) := by
      apply find?_unique (List.mem_reverse.mpr hm)
      · simp
      · intro x hx hp
        simp only [beq_iff_eq] at hp
        exact nodup_map_eq hni x (List.mem_reverse.mp hx) (t, i) hm (by simp [hp])
    rw [hfind]
    rfl

theorem BPE_token_to_id_mem {vocab : List (ByteStr × Int)} {t : ByteStr}
    (h : BPE_token_to_id vocab t ≠ -1) : (t, BPE_token_to_id vocab t) ∈ vocab := by
  unfold BPE_token_to_id at *
  rcases hf : lookupTok vocab t with _ | j
  · rw [hf] at h
    simp at h
  · simp only [Option.getD_some]
    exact lookupTok_mem_of_ne hf

theorem bytesCharMap_ne_nil {b : Nat} (hb : b < 256) : bytesCharMap b ≠ [] := by
  have hle := bytesCharCp_le hb
  unfold bytesCharMap u2u
  split
  · simp
  · split
    · simp
    · split
      · simp
      · omega

theorem utf8Iterate_bytesCharMap {b : Nat} (hb : b < 256) (rest : ByteStr) :
    utf8Iterate (bytesCharMap b ++ rest) = some (bytesCharCp b, (bytesCharMap b).length) := by
  have hle := bytesCharCp_le hb
  exact utf8Iterate_u2u (by omega) rest

theorem remapFrag_append (a b : ByteStr) :
    remapFrag (a ++ b) = remapFrag a ++ remapFrag b := by
  simp [remapFrag]

theorem remapFrag_cons (b : Nat) (p : ByteStr) :
    remapFrag (b :: p) = bytesCharMap b ++ remapFrag p := by
  simp [remapFrag]

theorem remapFrag_singleton (b : Nat) : remapFrag [b] = bytesCharMap b := by
  simp [remapFrag]

theorem remapFrag_ne_nil {p : ByteStr} (hne : p ≠ []) (hlt : ∀ b ∈ p, b < 256) :
    remapFrag p ≠ [] := by
  rcases p with _ | ⟨b, p2⟩
  · exact absurd rfl hne
  · rw [remapFrag_cons]
    have := bytesCharMap_ne_nil (hlt b (by simp))
    simp [this]

/-- The invariant of the BPE merge loop: id `i` "spells" the byte fragment
`p` when the vocab maps the remapped string of `p` to `i`. -/
def SpellsVia (vocab : List (ByteStr × Int)) (id : Int) (p : ByteStr) : Prop :=
  p ≠ [] ∧ (∀ b ∈ p, b < 256) ∧ (remapFrag p, id) ∈ vocab

theorem bpeSeedCp_remap (vocab : List (ByteStr × Int))
    (hnt : (vocab.map (fun p => p.1)).Nodup)
    (hpos : ∀ p ∈ vocab, 0 ≤ p.2)
    (halpha : ∀ b, b < 256 → ∃ i, (bytesCharMap b, i) ∈ vocab) :
    ∀ p : ByteStr, (∀ b ∈ p, b < 256) →
      List.Forall₂ (SpellsVia vocab) (bpeSeedCp vocab (remapFrag p))
        (p.map (fun b => [b])) := by
  intro p
  induction p with
  | nil =>
    intro _
    have h0 : remapFrag [] = [] := by simp [remapFrag]
    rw [h0]
    exact List.Forall₂.nil
  | cons b p2 ih =>
    intro hlt
    have hb : b < 256 := hlt b (by simp)
    obtain ⟨c, cs, hcc⟩ : ∃ c cs, bytesCharMap b = c :: cs := by
      rcases hmap : bytesCharMap b with _ | ⟨c, cs⟩
      · exact absurd hmap (bytesCharMap_ne_nil hb)
      · exact ⟨c, cs, rfl⟩
    have hrem : remapFrag (b :: p2) = c :: (cs ++ remapFrag p2) := by
      rw [remapFrag_cons, hcc]
      rfl
    have hit : utf8Iterate (c :: (cs ++ remapFrag p2)) =
        some (bytesCharCp b, cs.length + 1) := by
      have hxx := utf8Iterate_bytesCharMap hb (remapFrag p2)
      rw [hcc] at hxx
      simpa using hxx
    have htake : (c :: (cs ++ remapFrag p2)).take (cs.length + 1) = bytesCharMap b := by
      rw [List.take_succ_cons, List.take_left, hcc]
    have hdrop : (c :: (cs ++ remapFrag p2)).drop (cs.length + 1) = remapFrag p2 := by
      rw [List.drop_succ_cons, List.drop_left]
    obtain ⟨i, hmem⟩ := halpha b hb
    have hid : BPE_token_to_id vocab (bytesCharMap b) = i := by
      rw [BPE_token_to_id, lookupTok_mem hnt hmem]
      rfl
    have hine : BPE_token_to_id vocab (bytesCharMap b) ≠ -1 := by
      rw [hid]
      have := hpos _ hmem
      omega
    have hstep : bpeSeedCp vocab (c :: (cs ++ remapFrag p2)) =
        [i] ++ bpeSeedCp vocab (remapFrag p2) := by
      unfold bpeSeedCp
      rw [show (c :: (cs ++ remapFrag p2)).length = (cs ++ remapFrag p2).length + 1 from
        List.length_cons _ _]
      simp only [bpeSeedCpGo]
      simp only [hit]
      rw [htake, hdrop, if_neg hine, hid]
      congr 1
      apply bpeSeedCpGo_fuel
      · simp [List.length_append]
      · exact Nat.le_refl _
    rw [hrem, hstep, List.map_cons]
    refine List.Forall₂.cons ?_ (ih (fun x hx => hlt x (List.mem_cons_of_mem _ hx)))
    refine ⟨by simp, by simp [hb], ?_⟩
    rw [remapFrag_singleton]
    exact hmem

theorem drop_getD {α : Type} (d : α) :
    ∀ (out : List α) (i : Nat) (a : α) (rest : List α),
      out.drop i = a :: rest → out.getD i d = a := by
  intro out
  induction out with
  | nil =>
    intro i a rest h
    simp at h
  | cons x xs ih =>
    intro i a rest h
    rcases i with _ | i
    · simp at h
      simp [h.1]
    · simp only [List.drop_succ_cons] at h
      simpa using ih i a rest h

theorem forall2_mem_right {α β : Type} {R : α → β → Prop} :
    ∀ {l1 : List α} {l2 : List β}, List.Forall₂ R l1 l2 →
      ∀ y ∈ l2, ∃ x ∈ l1, R x y := by
  intro l1 l2 h
  induction h with
  | nil => intro y hy; cases hy
  | cons hab h ih =>
    intro y hy
    rcases List.mem_cons.mp hy with hya | hy
    · exact ⟨_, by simp, hya ▸ hab⟩
    · obtain ⟨x, hx, hr⟩ := ih y hy
      exact ⟨x, List.mem_cons_of_mem _ hx, hr⟩

theorem bpeMergeGo_preserve (vocab : List (ByteStr × Int)) (merges : MergeTable)
    (hnt : (vocab.map (fun p => p.1)).Nodup)
    (hni : (vocab.map (fun p => p.2)).Nodup) :
    ∀ (fuel : Nat) (out : List Int) (parts : List ByteStr),
      List.Forall₂ (SpellsVia vocab) out parts →
      ∃ parts2, List.Forall₂ (SpellsVia vocab) (bpeMergeGo vocab merges fuel out) parts2 ∧
        parts2.flatten = parts.flatten := by
  intro fuel
  induction fuel with
  | zero =>
    intro out parts h
    exact ⟨parts, h, rfl⟩
  | succ fuel ih =>
    intro out parts h
    rw [bpeMergeGo]
    split
    · exact ⟨parts, h, rfl⟩
    · rename_i hgt
      rcases hb : findBest merges out with _ | i
      · exact ⟨parts, h, rfl⟩
      · simp only
        have hbound := findBest_some_bound hb
        have hleq := h.length_eq
        obtain ⟨a, b2, rest, hoa⟩ : ∃ a b2 rest, out.drop i = a :: b2 :: rest := by
          have hlen : 2 ≤ (out.drop i).length := by
            simp only [List.length_drop]
            omega
          rcases hd : out.drop i with _ | ⟨a, _ | ⟨b2, rest⟩⟩
          · rw [hd] at hlen; simp at hlen
          · rw [hd] at hlen; simp at hlen
          · exact ⟨a, b2, rest, rfl⟩
        obtain ⟨pa, pb, prest, hop⟩ : ∃ pa pb prest, parts.drop i = pa :: pb :: prest := by
          have hlen : 2 ≤ (parts.drop i).length := by
            simp only [List.length_drop]
            omega
          rcases hd : parts.drop i with _ | ⟨pa, _ | ⟨pb, prest⟩⟩
          · rw [hd] at hlen; simp at hlen
          · rw [hd] at hlen; simp at hlen
          · exact ⟨pa, pb, prest, rfl⟩
        have hfd := List.forall₂_drop i h
        rw [hoa, hop] at hfd
        rcases hfd with _ | ⟨hQa, hfd2⟩
        rcases hfd2 with _ | ⟨hQb, hfrest⟩
        have hga : out.getD i 0 = a := drop_getD 0 out i a _ hoa
        have hgb : out.getD (i + 1) 0 = b2 := by
          apply drop_getD 0 out (i + 1) b2 rest
          have : out.drop (i + 1) = (out.drop i).tail := (List.tail_drop out i).symm
          rw [this, hoa]
          rfl
        have hta : BPE_id_to_token vocab a = remapFrag pa :=
          (BPE_vocab_inverse hnt hni hQa.2.2).2
        have htb : BPE_id_to_token vocab b2 = remapFrag pb :=
          (BPE_vocab_inverse hnt hni hQb.2.2).2
        have hm : BPE_id_to_token vocab (out.getD i 0) ++ BPE_id_to_token vocab (out.getD (i + 1) 0)
            = remapFrag (pa ++ pb) := by
          rw [hga, hgb, hta, htb, remapFrag_append]
        split
        · exact ⟨parts, h, rfl⟩
        · rename_i hnid
          rw [hm] at hnid
          have hmem := BPE_token_to_id_mem hnid
          have hQm : SpellsVia vocab (BPE_token_to_id vocab (remapFrag (pa ++ pb))) (pa ++ pb) := by
            refine ⟨by simp [hQa.1], ?_, hmem⟩
            intro x hx
            rcases List.mem_append.mp hx with hx | hx
            · exact hQa.2.1 x hx
            · exact hQb.2.1 x hx
          have hdrop2 : out.drop (i + 2) = rest := by
            have h1 : out.drop (i + 1) = b2 :: rest := by
              have : out.drop (i + 1) = (out.drop i).tail := (List.tail_drop out i).symm
              rw [this, hoa]
              rfl
            have : out.drop (i + 2) = (out.drop (i + 1)).tail := (List.tail_drop out (i + 1)).symm
            rw [this, h1]
            rfl
          have hfmerged : List.Forall₂ (SpellsVia vocab)
              (mergeAt out i (BPE_token_to_id vocab (remapFrag (pa ++ pb))))
              (parts.take i ++ [pa ++ pb] ++ prest) := by
            unfold mergeAt
            rw [hdrop2]
            exact List.rel_append (List.rel_append (List.forall₂_take i h)
              (List.Forall₂.cons hQm List.Forall₂.nil)) hfrest
          rw [hm]
          obtain ⟨parts3, hf3, hfl3⟩ := ih _ _ hfmerged
          refine ⟨parts3, hf3, ?_⟩
          rw [hfl3]
          have hps : parts = parts.take i ++ (pa :: pb :: prest) := by
            conv_lhs => rw [← List.take_append_drop i parts]
            rw [hop]
          conv_rhs => rw [hps]
          simp [List.flatten_append, List.append_assoc]

theorem byteLevelDecodeTok_remap :
    ∀ p : ByteStr, (∀ b ∈ p, b < 256) → byteLevelDecodeTok (remapFrag p) = p := by
  intro p
  induction p with
  | nil =>
    intro _
    have h0 : remapFrag [] = [] := by simp [remapFrag]
    rw [h0]
    rfl
  | cons b p2 ih =>
    intro hlt
    have hb : b < 256 := hlt b (by simp)
    obtain ⟨c, cs, hcc⟩ : ∃ c cs, bytesCharMap b = c :: cs := by
      rcases hmap : bytesCharMap b with _ | ⟨c, cs⟩
      · exact absurd hmap (bytesCharMap_ne_nil hb)
      · exact ⟨c, cs, rfl⟩
    have hrem : remapFrag (b :: p2) = c :: (cs ++ remapFrag p2) := by
      rw [remapFrag_cons, hcc]
      rfl
    have hit : utf8Iterate (c :: (cs ++ remapFrag p2)) =
        some (bytesCharCp b, cs.length + 1) := by
      have hxx := utf8Iterate_bytesCharMap hb (remapFrag p2)
      rw [hcc] at hxx
      simpa using hxx
    have htake : (c :: (cs ++ remapFrag p2)).take (cs.length + 1) = bytesCharMap b := by
      rw [List.take_succ_cons, List.take_left, hcc]
    have hdrop : (c :: (cs ++ remapFrag p2)).drop (cs.length + 1) = remapFrag p2 := by
      rw [List.drop_succ_cons, List.drop_left]
    have hstep : byteLevelDecodeTok (c :: (cs ++ remapFrag p2)) =
        [b] ++ byteLevelDecodeTok (remapFrag p2) := by
      unfold byteLevelDecodeTok
      rw [show (c :: (cs ++ remapFrag p2)).length = (cs ++ remapFrag p2).length + 1 from
        List.length_cons _ _]
      simp only [byteLevelDecodeGo]
      simp only [hit]
      rw [htake, hdrop, byteOfChar_bytesCharMap hb]
      congr 1
      apply byteLevelDecodeGo_fuel
      · simp [List.length_append]
      · exact Nat.le_refl _
    rw [hrem, hstep, ih (fun x hx => hlt x (List.mem_cons_of_mem _ hx))]
    rfl

theorem decode_tokens_of_spells {vocab : List (ByteStr × Int)}
    (hnt : (vocab.map (fun p => p.1)).Nodup)
    (hni : (vocab.map (fun p => p.2)).Nodup) :
    ∀ {out : List Int} {parts : List ByteStr},
      List.Forall₂ (SpellsVia vocab) out parts →
      out.filterMap (fun id =>
        if BPE_id_to_token vocab id = [] then none else some (BPE_id_to_token vocab id)) =
      parts.map remapFrag := by
  intro out parts h
  induction h with
  | nil => rfl
  | cons hab h ih =>
    rename_i a pa l1 l2
    have hta : BPE_id_to_token vocab a = remapFrag pa :=
      (BPE_vocab_inverse hnt hni hab.2.2).2
    have hne : remapFrag pa ≠ [] := remapFrag_ne_nil hab.1 hab.2.1
    simp only [List.filterMap_cons, hta, if_neg hne, List.map_cons]
    rw [ih]

theorem filterMap_flatten {α β : Type} (f : α → Option β) :
    ∀ L : List (List α), (L.flatten).filterMap f = (L.map (fun l => l.filterMap f)).flatten := by
  intro L
  induction L with
  | nil => rfl
  | cons l L2 ih =>
    simp only [List.flatten_cons, List.filterMap_append, List.map_cons, ih]

theorem flatten_map_singleton {α : Type} : ∀ l : List α, (l.map (fun b => [b])).flatten = l := by
  intro l
  induction l with
  | nil => rfl
  | cons a t ih =>
    simp only [List.map_cons, List.flatten_cons, ih]
    rfl

theorem piece_decode (vocab : List (ByteStr × Int)) (merges : MergeTable)
    (hnt : (vocab.map (fun p => p.1)).Nodup)
    (hni : (vocab.map (fun p => p.2)).Nodup)
    (hpos : ∀ p ∈ vocab, 0 ≤ p.2)
    (halpha : ∀ b, b < 256 → ∃ i, (bytesCharMap b, i) ∈ vocab)
    (p : ByteStr) (hp : ∀ b ∈ p, b < 256) :
    (ByteLevelDecoder_decode ((BPEModel_tokenize vocab merges false (remapFrag p)).filterMap
      (fun id => if BPE_id_to_token vocab id = [] then none
                 else some (BPE_id_to_token vocab id)))).flatten = p := by
  by_cases hpe : p = []
  · subst hpe
    simp [BPEModel_tokenize, remapFrag, ByteLevelDecoder_decode]
  · have hrne : remapFrag p ≠ [] := remapFrag_ne_nil hpe hp
    have htok : BPEModel_tokenize vocab merges false (remapFrag p) =
        bpeMergeGo vocab merges (bpeSeedCp vocab (remapFrag p)).length
          (bpeSeedCp vocab (remapFrag p)) := by
      simp [BPEModel_tokenize, hrne, bpeMergeLoop]
    have hseed := bpeSeedCp_remap vocab hnt hpos halpha p hp
    obtain ⟨parts2, hf2, hfl2⟩ := bpeMergeGo_preserve vocab merges hnt hni
      (bpeSeedCp vocab (remapFrag p)).length _ _ hseed
    rw [htok, decode_tokens_of_spells hnt hni hf2]
    unfold ByteLevelDecoder_decode
    rw [List.map_map]
    have hmapid : parts2.map (byteLevelDecodeTok ∘ remapFrag) = parts2.map id := by
      apply List.map_congr_left
      intro q hq
      obtain ⟨idq, hidq, hQ⟩ := forall2_mem_right hf2 q hq
      exact byteLevelDecodeTok_remap q hQ.2.1
    rw [hmapid, List.map_id, hfl2, flatten_map_singleton]

theorem pieces_roundtrip (vocab : List (ByteStr × Int)) (merges : MergeTable)
    (hnt : (vocab.map (fun p => p.1)).Nodup)
    (hni : (vocab.map (fun p => p.2)).Nodup)
    (hpos : ∀ p ∈ vocab, 0 ≤ p.2)
    (halpha : ∀ b, b < 256 → ∃ i, (bytesCharMap b, i) ∈ vocab) :
    ∀ pieces : List ByteStr, (∀ p ∈ pieces, ∀ b ∈ p, b < 256) →
      (ByteLevelDecoder_decode
        (((pieces.map (fun p => BPEModel_tokenize vocab merges false (remapFrag p))).flatten).filterMap
          (fun id => if BPE_id_to_token vocab id = [] then none
                     else some (BPE_id_to_token vocab id)))).flatten = pieces.flatten := by
  intro pieces
  induction pieces with
  | nil =>
    intro _
    simp [ByteLevelDecoder_decode]
  | cons p ps ih =>
    intro hsub
    have h1 := piece_decode vocab merges hnt hni hpos halpha p (hsub p (by simp))
    have h2 := ih (fun q hq => hsub q (List.mem_cons_of_mem _ hq))
    simp only [List.map_cons, List.flatten_cons, List.filterMap_append]
    unfold ByteLevelDecoder_decode at *
    rw [List.map_append, List.flatten_append, h1, h2]

theorem encodeUnits_no_matcher (addedToks : List AddedTok) (text : ByteStr)
    (h : text ≠ []) :
    encodeUnitsGo none addedToks text (text.length + 1) 0 [] = [(text, false)] := by
  have hlen : 0 < text.length := List.length_pos.mpr h
  simp only [encodeUnitsGo]
  rw [if_pos hlen]
  simp

theorem encode_byte_level_eq (vocab : List (ByteStr × Int)) (merges : MergeTable)
    (useRegex : Bool) (search : ByteStr → Nat → Option (Nat × Nat))
    (hs : SearchContractPos search) (f2i : ByteStr → Int) (bos eos : Int)
    (x : ByteStr) (hx : x ≠ []) :
    PreTrainedTokenizer_encode none [] none
        (some (ByteLevel_pre_tokenize useRegex search hs))
        (BPEModel_tokenize vocab merges false) f2i bos eos x false =
      ((if useRegex then
          (([x].filter (fun s => !s.isEmpty)).map (fun s => blSplitGo search hs s 0)).flatten
        else [x]).map
        (fun p => BPEModel_tokenize vocab merges false (remapFrag p))).flatten := by
  unfold PreTrainedTokenizer_encode
  rw [if_neg hx, encodeUnits_no_matcher [] x hx]
  simp only [List.map_cons, List.map_nil, List.flatten_cons, List.flatten_nil,
    List.append_nil, false_and, if_false, List.nil_append]
  rw [if_neg hx]
  unfold ByteLevel_pre_tokenize
  rw [List.map_map]
  simp only [Function.comp_def, false_and, if_false, Bool.false_eq_true, List.nil_append,
    List.append_nil]

/-- C1: for a tokenizer wired as a byte-level BPE (ByteLevel pre-tokenizer,
so the model's own byte remapping is suppressed; ByteLevel decoder; no
normalizer and no added tokens), with a vocabulary that is a bijection
(duplicate-free tokens and ids, non-negative ids) containing the
single-code-point alphabet string of every byte, and for every ASCII input
`x`: `decode(encode(x, add_special_tokens := false), skip_special_tokens
:= true) = x`.  The regex matcher is the engine black box; its contract
(in-bounds, non-empty matches — the GPT-2 pattern never matches the empty
string) is the `SearchContractPos` argument. -/
theorem byte_level_bpe_roundtrip (vocab : List (ByteStr × Int)) (merges : MergeTable)
    (useRegex : Bool) (search : ByteStr → Nat → Option (Nat × Nat))
    (hs : SearchContractPos search) (f2i : ByteStr → Int) (bos eos : Int)
    (x : ByteStr)
    (hascii : ∀ b ∈ x, b < 128)
    (hnt : (vocab.map (fun p => p.1)).Nodup)
    (hni : (vocab.map (fun p => p.2)).Nodup)
    (hpos : ∀ p ∈ vocab, 0 ≤ p.2)
    (halpha : ∀ b, b < 256 → ∃ i, (bytesCharMap b, i) ∈ vocab) :
    PreTrainedTokenizer_decode [] (BPE_id_to_token vocab) ByteLevelDecoder_decode
      (PreTrainedTokenizer_encode none [] none
        (some (ByteLevel_pre_tokenize useRegex search hs))
        (BPEModel_tokenize vocab merges false) f2i bos eos x false) true = x := by
  by_cases hx : x = []
  · subst hx
    simp [PreTrainedTokenizer_encode, PreTrainedTokenizer_decode, ByteLevelDecoder_decode]
  · rw [encode_byte_level_eq vocab merges useRegex search hs f2i bos eos x hx]
    have hdec : ∀ ids : List Int,
        PreTrainedTokenizer_decode [] (BPE_id_to_token vocab) ByteLevelDecoder_decode ids true =
        (ByteLevelDecoder_decode (ids.filterMap (fun id =>
          if BPE_id_to_token vocab id = [] then none
          else some (BPE_id_to_token vocab id)))).flatten := by
      intro ids
      simp [PreTrainedTokenizer_decode]
    rw [hdec]
    have hsub : ∀ p ∈ (if useRegex then
        (([x].filter (fun s => !s.isEmpty)).map (fun s => blSplitGo search hs s 0)).flatten
      else [x]), ∀ b ∈ p, b < 256 := by
      rcases useRegex with _ | _
      · simp only [if_neg Bool.false_ne_true]
        intro p hp b hb
        simp only [List.mem_singleton] at hp
        subst hp
        have := hascii b hb
        omega
      · simp only [if_pos rfl]
        intro p hp b hb
        have hfil : [x].filter (fun s => !s.isEmpty) = [x] := by
          simp [List.filter_cons, List.isEmpty_iff, hx]
        rw [hfil] at hp
        simp only [List.map_cons, List.map_nil, List.flatten_cons, List.flatten_nil,
          List.append_nil] at hp
        have hbx := blSplitGo_subset search hs x x.length 0 (by omega) p hp b hb
        have := hascii b hbx
        omega
    have hflat : (if useRegex then
        (([x].filter (fun s => !s.isEmpty)).map (fun s => blSplitGo search hs s 0)).flatten
      else [x]).flatten = x := by
      rcases useRegex with _ | _
      · simp
      · simp only [if_pos rfl]
        have hfil : [x].filter (fun s => !s.isEmpty) = [x] := by
          simp [List.filter_cons, List.isEmpty_iff, hx]
        rw [hfil]
        simp only [List.map_cons, List.map_nil, List.flatten_cons, List.flatten_nil,
          List.append_nil]
        have := blSplitGo_flatten search hs x x.length 0 (by omega)
        simpa using this
    rw [pieces_roundtrip vocab merges hnt hni hpos halpha _ hsub, hflat]

def noSearch : ByteStr → Nat → Option (Nat × Nat) := fun _ _ => none

theorem noSearch_contract : SearchContractPos noSearch := by
  intro s pos ms me h
  simp [noSearch] at h

/-- A concrete vocabulary holding the alphabet string of every byte,
with id b for byte b. -/
def asciiAlphaVocab : List (ByteStr × Int) :=
  (List.range 256).map (fun b => (bytesCharMap b, (b : Int)))

/-- Witness for C1: the roundtrip theorem applied at the concrete input
"Hi" ([72, 105]) with the 256-entry alphabet vocabulary, no merges and no
regex splitting. -/
theorem byte_level_bpe_roundtrip_witness :
    PreTrainedTokenizer_decode [] (BPE_id_to_token asciiAlphaVocab) ByteLevelDecoder_decode
      (PreTrainedTokenizer_encode none [] none
        (some (ByteLevel_pre_tokenize false noSearch noSearch_contract))
        (BPEModel_tokenize asciiAlphaVocab [] false) (fun _ => -1) (-1) (-1)
        [72, 105] false) true = [72, 105] := by
  refine byte_level_bpe_roundtrip asciiAlphaVocab [] false noSearch noSearch_contract
    (fun _ => -1) (-1) (-1) [72, 105] ?_ ?_ ?_ ?_ ?_
  · intro b hb
    simp at hb
    rcases hb with rfl | rfl <;> decide
  · unfold asciiAlphaVocab
    rw [List.map_map]
    apply List.Nodup.map_on
    · intro a ha b hb h
      exact bytesCharMap_inj (List.mem_range.mp ha) (List.mem_range.mp hb) h
    · exact List.nodup_range 256
  · unfold asciiAlphaVocab
    rw [List.map_map]
    apply List.Nodup.map_on
    · intro a ha b hb h
      simp only [Function.comp_apply] at h
      exact_mod_cast h
    · exact List.nodup_range 256
  · intro p hp
    unfold asciiAlphaVocab at hp
    rcases List.mem_map.mp hp with ⟨b, hb, rfl⟩
    exact Int.ofNat_nonneg b
  · intro b hb
    refine ⟨(b : Int), ?_⟩
    unfold asciiAlphaVocab
    exact List.mem_map.mpr ⟨b, List.mem_range.mpr hb, rfl⟩

end TokenizerCpp
